import Mathlib

/-!
Verification of a work-stealing thread pool with a fork-join quicksort client.

The development shallowly embeds the two source files of the repository:

* ThreadPool.h: per-worker task deques (push_front by submitters, pop_front
  by the owning worker, pop_back by thieves), a round-robin submission index
  and the worker scheduling loop.
* main.cpp: QuicksortState (pending counter, single-slot error record,
  one-shot promise), spawn_task_in_pool (the wrapper that catches task
  errors, records the first one, decrements the counter and finalizes the
  promise on the 1 to 0 transition), and quicksort_job (in-place quicksort
  with a small-range cutoff and a threshold-driven spawn policy).

Machine integers (C++ long / int) are modelled as Int, array cells as a
List Int with functional update; out-of-range reads return a default and
all theorems are proved in the in-bounds regime the C++ code guarantees.
Concurrency is modelled by traces: the mutex-protected queue operations
and the atomic counter updates are atomic events, interleaved arbitrarily
subject to the happens-before facts the code establishes.
-/

/- ===================== ThreadPool model ===================== -/

/-- A deferred work item; tasks are identified by a numeric id. -/
abbrev TaskId := Nat

/-- State of the pool as observed through its queues: the per-worker deques
(head of each list is the front of the deque), the round-robin submission
counter m_index, plus the history of executed and submitted tasks. -/
structure PoolState where
  queues : List (List TaskId)
  rrIndex : Nat
  executed : List TaskId
  submitted : List TaskId

/-- Freshly constructed pool with n empty worker queues. -/
def initPool (n : Nat) : PoolState :=
  { queues := List.replicate n [], rrIndex := 0, executed := [], submitted := [] }

/-- Atomic pool events: a push_task submission, an owner pop_front from
queue w followed by running the task, and a thief pop_back from queue v
followed by running the stolen task. -/
inductive PoolOp where
  | push (t : TaskId)
  | popOwn (w : Nat)
  | stealFrom (v : Nat)

/-- One atomic pool event, mirroring push_task, try_pop_from_queue and
try_steal_from_queue: push_task picks the destination queue by
m_index.fetch_add(1) modulo the queue count and pushes at the front; the
owner pops the front of its queue; a thief pops the back of the victim
queue. A pop on an empty queue is a failed attempt and changes nothing. -/
def pool_step (s : PoolState) : PoolOp → PoolState
  | PoolOp.push t =>
    let idx := s.rrIndex % s.queues.length
    { s with queues := s.queues.set idx (t :: s.queues.getD idx []),
             rrIndex := s.rrIndex + 1,
             submitted := s.submitted ++ [t] }
  | PoolOp.popOwn w =>
    match s.queues.getD w [] with
    | [] => s
    | t :: rest =>
      { s with queues := s.queues.set w rest, executed := s.executed ++ [t] }
  | PoolOp.stealFrom v =>
    match (s.queues.getD v []).getLast? with
    | none => s
    | some t =>
      { s with queues := s.queues.set v (s.queues.getD v []).dropLast,
               executed := s.executed ++ [t] }

/-- Run a sequence of pool events from a fresh pool of n queues. -/
def pool_run (n : Nat) (ops : List PoolOp) : PoolState :=
  ops.foldl pool_step (initPool n)

/-- Total number of copies of task t currently resident in the queues. -/
def queuedCount (t : TaskId) (qs : List (List TaskId)) : Nat :=
  (qs.map (fun q => q.count t)).sum

/-- The sequence of queue indices visited by the steal scan of
worker_loop: for i = 0 .. N-1 the queue (my_index + 1 + i) mod N. -/
def steal_scan_order (n my : Nat) : List Nat :=
  (List.range n).map (fun i => (my + 1 + i) % n)

/-- First successful pop_back along a list of queue indices: the steal
loop of worker_loop tries try_steal_from_queue on each index in turn and
stops at the first queue that yields a task. -/
def steal_tryList (qs : List (List TaskId)) : List Nat → Option (Nat × TaskId)
  | [] => none
  | idx :: rest =>
    match (qs.getD idx []).getLast? with
    | some t => some (idx, t)
    | none => steal_tryList qs rest

/-- The whole steal phase of worker_loop for a worker with index my:
scan the queues in steal_scan_order, returning the index and task of the
first successful steal, or none (the worker then goes idle). -/
def steal_phase (qs : List (List TaskId)) (my : Nat) : Option (Nat × TaskId) :=
  steal_tryList qs (steal_scan_order qs.length my)

/- ===================== Fork-join (QuicksortState) model ===================== -/

/-- Atomic events on one QuicksortState, as performed by
spawn_task_in_pool: inc t is the fetch_add of task t at spawn time;
exec t err is the guarded run of task t's body (err is the error it
raised, if any), whose catch block records the error under the mutex;
dec t is the fetch_sub at the end of t's wrapper, finalizing the promise
when the previous counter value was 1. -/
inductive FJAct where
  | inc (t : Nat)
  | exec (t : Nat) (err : Option Nat)
  | dec (t : Nat)

/-- The shared completion tracker of one task tree, mirroring the C++
QuicksortState: the pending counter, the stored exception (none models a
default-constructed exception_ptr), the except_set flag, and the history
of values delivered to the promise (set_value records Except.ok, while
set_exception records Except.error; a correct run appends exactly once). -/
structure QuicksortState where
  counter : Int
  except_ptr : Option Nat
  except_set : Bool
  prom : List (Except Nat Unit)

/-- A fresh QuicksortState: counter 0, no exception, promise unset. -/
def initQS : QuicksortState :=
  { counter := 0, except_ptr := none, except_set := false, prom := [] }

/-- Finalization performed by the thread whose decrement saw the counter
at 1: under the mutex, deliver the recorded exception if any, otherwise
deliver success. -/
def finalizeQS (s : QuicksortState) : QuicksortState :=
  { s with prom := s.prom ++
      [if s.except_set then Except.error (s.except_ptr.getD 0) else Except.ok ()] }

/-- One atomic event of the spawn wrapper. inc: counter fetch_add.
exec with an error: under the mutex, record the error only if the slot is
still empty. dec: counter fetch_sub; if the previous value was 1,
finalize the promise. -/
def fj_step (s : QuicksortState) : FJAct → QuicksortState
  | FJAct.inc _ => { s with counter := s.counter + 1 }
  | FJAct.exec _ none => s
  | FJAct.exec _ (some e) =>
    if s.except_set then s
    else { s with except_ptr := some e, except_set := true }
  | FJAct.dec _ =>
    let prev := s.counter
    let s1 := { s with counter := s.counter - 1 }
    if prev = 1 then finalizeQS s1 else s1

/-- The first k events of an execution described by the event function ev. -/
def fjTrace (ev : Nat → FJAct) (k : Nat) : List FJAct :=
  (List.range k).map ev

/-- State of the QuicksortState after the first k events. -/
def fjRun (ev : Nat → FJAct) (k : Nat) : QuicksortState :=
  (fjTrace ev k).foldl fj_step initQS

/-- The error an event contributes to the error slot, if any. -/
def recErrOf : FJAct → Option Nat
  | FJAct.exec _ (some e) => some e
  | _ => none

/-- The first task-body error in wrapper-arrival order along a trace. -/
def firstFailure (es : List FJAct) : Option Nat :=
  es.findSome? recErrOf

/-- The outcome a trace should deliver: the first recorded error if any
task failed, success otherwise. -/
def fjOutcome (es : List FJAct) : Except Nat Unit :=
  match firstFailure es with
  | some e => Except.error e
  | none => Except.ok ()

/-- Well-formedness of a complete fork-join execution trace of n tasks
(3 * n events, numbered by position). Each task i occupies three
positions: its spawn-time increment pinc i, its guarded body run
pexec i, and its decrement pdec i, in that order; every position below
3 * n belongs to some task; the root task 0 is spawned first; and every
non-root task is spawned by a running parent, so its increment falls
strictly between its parent's increment and its parent's decrement.
These are exactly the happens-before facts spawn_task_in_pool and
quicksort_job establish: the counter is incremented before the task is
pushed, and a child can only be spawned from inside its parent's body. -/
structure ForkJoinShape (n : Nat) (parent pinc pexec pdec : Nat → Nat)
    (errOf : Nat → Option Nat) (ev : Nat → FJAct) : Prop where
  npos : 0 < n
  evInc : ∀ i, i < n → ev (pinc i) = FJAct.inc i
  evExec : ∀ i, i < n → ev (pexec i) = FJAct.exec i (errOf i)
  evDec : ∀ i, i < n → ev (pdec i) = FJAct.dec i
  incLt : ∀ i, i < n → pinc i < pexec i
  execLt : ∀ i, i < n → pexec i < pdec i
  decBnd : ∀ i, i < n → pdec i < 3 * n
  cover : ∀ p, p < 3 * n → ∃ i, i < n ∧ (p = pinc i ∨ p = pexec i ∨ p = pdec i)
  rootFirst : pinc 0 = 0
  nest : ∀ i, i < n → i ≠ 0 →
    parent i < n ∧ pinc (parent i) < pinc i ∧ pinc i < pdec (parent i)

/-- Number of tasks whose event position under f lies before time k. -/
def posBefore (f : Nat → Nat) (n k : Nat) : Nat :=
  ((Finset.range n).filter (fun i => f i < k)).card

/-- Tasks spawned but not yet decremented at time k. -/
def activeAt (pinc pdec : Nat → Nat) (n k : Nat) : Finset Nat :=
  (Finset.range n).filter (fun i => pinc i < k ∧ k ≤ pdec i)

/-- The wrapped task pushed by spawn_task_in_pool, run to completion by a
worker with no interference: the body's outcome is caught at the wrapper
boundary (recording the first error), the counter is decremented, the
promise finalized on the 1 to 0 transition, and the wrapper itself
returns normally - the second component is the outcome the worker's
unguarded call observes. -/
def run_wrapped (s : QuicksortState) (body : Except Nat Unit) :
    QuicksortState × Except Nat Unit :=
  let s1 :=
    match body with
    | Except.ok _ => s
    | Except.error e =>
      if s.except_set then s
      else { s with except_ptr := some e, except_set := true }
  let prev := s1.counter
  let s2 := { s1 with counter := s1.counter - 1 }
  (if prev = 1 then finalizeQS s2 else s2, Except.ok ())

/-- A worker executing a list of wrapped tasks back to back, counting how
many it completes; an error escaping a wrapper would abort its loop. -/
def worker_run (s : QuicksortState) : List (Except Nat Unit) → QuicksortState × Nat
  | [] => (s, 0)
  | b :: rest =>
    match run_wrapped s b with
    | (s1, Except.ok _) =>
      let p := worker_run s1 rest
      (p.1, p.2 + 1)
    | (s1, Except.error _) => (s1, 0)

/- ===================== Quicksort model ===================== -/

/-- Read array cell i (array[i] in the C++ source); reads are only ever
proved about in-range indices, where the default is irrelevant. -/
def readA (a : List Int) (i : Int) : Int :=
  a.getD i.toNat 0

/-- Write array cell i. -/
def writeA (a : List Int) (i : Int) (v : Int) : List Int :=
  a.set i.toNat v

/-- std::swap(array[i], array[j]). -/
def swapA (a : List Int) (i j : Int) : List Int :=
  let vi := readA a i
  let vj := readA a j
  writeA (writeA a i vj) j vi

/-- The scan while (array[l] < pivot) ++l, with enough fuel. -/
def scanL (a : List Int) (pivot : Int) : Nat → Int → Int
  | 0, l => l
  | fuel + 1, l => if readA a l < pivot then scanL a pivot fuel (l + 1) else l

/-- The scan while (array[r] > pivot) --r, with enough fuel. -/
def scanR (a : List Int) (pivot : Int) : Nat → Int → Int
  | 0, r => r
  | fuel + 1, r => if pivot < readA a r then scanR a pivot fuel (r - 1) else r

/-- The partition do-while loop of quicksort_job: scan from both ends,
swap and step inward while l <= r. -/
def partLoop (pivot : Int) : Nat → List Int → Int → Int → List Int × Int × Int
  | 0, a, l, r => (a, l, r)
  | fuel + 1, a, l, r =>
    let l1 := scanL a pivot (a.length + 1) l
    let r1 := scanR a pivot (a.length + 1) r
    if l1 ≤ r1 then
      let a1 := swapA a l1 r1
      if l1 + 1 ≤ r1 - 1 then partLoop pivot fuel a1 (l1 + 1) (r1 - 1)
      else (a1, l1 + 1, r1 - 1)
    else (a, l1, r1)

/-- The partition phase of quicksort_job on the range [left, right]:
pivot is array[(l + r) / 2]; returns the partitioned array and the final
indices (l, r). -/
def partitionStep (a : List Int) (left right : Int) : List Int × Int × Int :=
  let pivot := readA a ((left + right) / 2)
  partLoop pivot (a.length + 1) a left right

/-- std::sort(array + left, array + right + 1): sort the closed range
[left, right] in place, leaving the rest of the array untouched. -/
def sortRange (a : List Int) (left right : Int) : List Int :=
  let lo := left.toNat
  let len := (right + 1 - left).toNat
  a.take lo ++ List.insertionSort (· ≤ ·) ((a.drop lo).take len) ++ (a.drop lo).drop len

/-- quicksort_job, sequentialized: a spawned sub-task and the inline
continuation act on disjoint sub-ranges, so running them one after the
other (spawned first) computes the array every interleaving produces.
The small-range cutoff tiny = 1000 hands the range to the sequential
sort; otherwise the range is partitioned and each sub-range is processed
per the spawn policy of the source's four branches. Fuel bounds the
recursion depth; every theorem supplies enough fuel for the recursion to
run to completion. -/
def quicksort_job : Nat → List Int → Int → Int → Int → List Int
  | 0, a, _, _, _ => a
  | fuel + 1, a, left, right, threshold =>
    if left ≥ right then a
    else if right - left ≤ 1000 then sortRange a left right
    else
      let p := partitionStep a left right
      let a1 := p.1
      let l := p.2.1
      let r := p.2.2
      if threshold < r - left ∧ threshold < right - l then
        quicksort_job fuel (quicksort_job fuel a1 left r threshold) l right threshold
      else if threshold < r - left then
        quicksort_job fuel (quicksort_job fuel a1 left r threshold) l right threshold
      else if threshold < right - l then
        quicksort_job fuel (quicksort_job fuel a1 l right threshold) left r threshold
      else
        quicksort_job fuel (quicksort_job fuel a1 left r threshold) l right threshold

/-- quicksort_async: the root call sorts the whole array, range
[0, N - 1]; the supplied fuel exceeds the maximal recursion depth. -/
def quicksort_async_model (a : List Int) (threshold : Int) : List Int :=
  quicksort_job (a.length + 1) a 0 ((a.length : Int) - 1) threshold

/-- The sequential baseline std::sort(arr2, arr2 + N) of main. -/
def baseline_sort (a : List Int) : List Int :=
  List.insertionSort (· ≤ ·) a

/-- How a partitioned range's two sub-ranges are processed. -/
inductive SubExec where
  | spawnedTask (lo hi : Int)
  | inlineCall (lo hi : Int)

/-- The spawn decision of quicksort_job after partitioning, transcribed
from the four branches of the source: left_big tests (r - left) >
threshold, right_big tests (right - l) > threshold; if both or only the
left are big the left sub-range [left, r] is spawned and [l, right] runs
inline; if only the right is big, [l, right] is spawned and [left, r]
runs inline; otherwise both run inline as direct recursive calls. -/
def schedule_children (left r l right threshold : Int) : List SubExec :=
  if threshold < r - left ∧ threshold < right - l then
    [SubExec.spawnedTask left r, SubExec.inlineCall l right]
  else if threshold < r - left then
    [SubExec.spawnedTask left r, SubExec.inlineCall l right]
  else if threshold < right - l then
    [SubExec.spawnedTask l right, SubExec.inlineCall left r]
  else
    [SubExec.inlineCall left r, SubExec.inlineCall l right]

/-- Sub-ranges submitted to the pool as new tasks. -/
def spawnedRanges (es : List SubExec) : List (Int × Int) :=
  es.filterMap (fun e => match e with
    | SubExec.spawnedTask lo hi => some (lo, hi)
    | _ => none)

/-- Sub-ranges processed inline by direct recursive calls. -/
def inlineRanges (es : List SubExec) : List (Int × Int) :=
  es.filterMap (fun e => match e with
    | SubExec.inlineCall lo hi => some (lo, hi)
    | _ => none)

/-- The scheduling policy as the specification words it, for comparison
with the code's schedule_children: both sub-ranges exceed the threshold:
spawn exactly one, always the left, and continue inline with the right;
exactly one exceeds: spawn that one and continue inline with the other;
neither exceeds: spawn nothing, process both inline. The first component
lists the spawned sub-ranges, the second the inline ones. -/
def spec_schedule (left r l right threshold : Int) :
    List (Int × Int) × List (Int × Int) :=
  if threshold < r - left ∧ threshold < right - l then ([(left, r)], [(l, right)])
  else if threshold < r - left then ([(left, r)], [(l, right)])
  else if threshold < right - l then ([(l, right)], [(left, r)])
  else ([], [(left, r), (l, right)])

/-- b agrees with a everywhere outside the index range [left, right]. -/
def outEq (b a : List Int) (left right : Int) : Prop :=
  b.length = a.length ∧
    ∀ j : Nat, ((j : Int) < left ∨ right < (j : Int)) → b.getD j 0 = a.getD j 0

/-- Specification bundle for the state of the partition loop when it
exits, relative to the call's input array a and indices l, r, within the
ambient range [left, right] being partitioned: the array is a
permutation of the input touched only inside [left, right], the indices
have crossed, everything strictly below the final l is at most the
pivot, everything strictly above the final r is at least the pivot, and
if some cell of [l, r] holds the pivot value the loop made progress on
both sides (it swapped at least once). -/
structure PartOut (pivot left right : Int) (a a1 : List Int) (l r l1 r1 : Int) : Prop where
  perm : a1.Perm a
  outside : outEq a1 a left right
  lmono : l ≤ l1
  rmono : r1 ≤ r
  crossed : r1 < l1
  lbound : l1 ≤ right + 1
  rbound : left - 1 ≤ r1
  zoneL : ∀ i, left ≤ i → i < l1 → readA a1 i ≤ pivot
  zoneR : ∀ i, r1 < i → i ≤ right → pivot ≤ readA a1 i
  forward : (∃ m, l ≤ m ∧ m ≤ r ∧ readA a m = pivot) → l + 1 ≤ l1 ∧ r1 ≤ r - 1

/- ===================== Theorems: thread pool ===================== -/

theorem pool_step_queues_length (s : PoolState) (op : PoolOp) :
    ((pool_step s op).queues).length = s.queues.length := by
  cases op with
  | push t => simp [pool_step]
  | popOwn w =>
    simp only [pool_step]
    split <;> simp
  | stealFrom v =>
    simp only [pool_step]
    split <;> simp

theorem queuedCount_cons (t : TaskId) (q : List TaskId) (qs : List (List TaskId)) :
    queuedCount t (q :: qs) = q.count t + queuedCount t qs := by
  simp [queuedCount]

theorem queuedCount_set (t : TaskId) (qs : List (List TaskId)) (i : Nat)
    (q' : List TaskId) (hi : i < qs.length) :
    queuedCount t (qs.set i q') + (qs.getD i []).count t
      = queuedCount t qs + q'.count t := by
  induction qs generalizing i with
  | nil => simp at hi
  | cons q rest ih =>
    cases i with
    | zero =>
      simp only [List.set_cons_zero, queuedCount_cons, List.getD_cons_zero]
      omega
    | succ j =>
      have hj : j < rest.length := by simpa using hi
      have h2 := ih j hj
      simp only [List.set_cons_succ, queuedCount_cons, List.getD_cons_succ]
      omega

theorem pool_step_conserves (s : PoolState) (op : PoolOp)
    (hn : 0 < s.queues.length)
    (hinv : ∀ t, s.executed.count t + queuedCount t s.queues = s.submitted.count t) :
    ∀ t, (pool_step s op).executed.count t
        + queuedCount t (pool_step s op).queues
      = (pool_step s op).submitted.count t := by
  intro t
  have hD : ∀ (w : Nat) (qs : List (List TaskId)), qs[w]?.getD ([] : List TaskId) = qs.getD w [] :=
    fun w qs => (List.getD_eq_getElem?_getD _ _ _).symm
  have hcons : ∀ (u : TaskId) (q : List TaskId),
      List.count t (u :: q) = List.count t q + (if u = t then 1 else 0) := by
    intro u q
    by_cases hu : u = t <;> simp [List.count_cons, hu]
  have happ : ∀ (xs : List TaskId) (u : TaskId),
      List.count t (xs ++ [u]) = List.count t xs + (if u = t then 1 else 0) := by
    intro xs u
    by_cases hu : u = t <;> simp [List.count_append, List.count_cons, hu]
  have hinvt := hinv t
  cases op with
  | push u =>
    have hidx : s.rrIndex % s.queues.length < s.queues.length := Nat.mod_lt _ hn
    have hset := queuedCount_set t s.queues (s.rrIndex % s.queues.length)
      (u :: s.queues.getD (s.rrIndex % s.queues.length) []) hidx
    have hc := hcons u (s.queues.getD (s.rrIndex % s.queues.length) [])
    simp only [pool_step, hD]
    rw [happ]
    by_cases hu : u = t
    · subst hu
      rw [if_pos rfl] at hc ⊢
      omega
    · rw [if_neg hu] at hc ⊢
      omega
  | popOwn w =>
    simp only [pool_step, hD]
    split
    · exact hinvt
    · rename_i u rest h
      dsimp only
      have hw : w < s.queues.length := by
        by_contra hw
        rw [List.getD_eq_default] at h
        · simp at h
        · omega
      have hset := queuedCount_set t s.queues w rest hw
      rw [h] at hset
      have hc := hcons u rest
      rw [hc] at hset
      rw [happ]
      by_cases hu : u = t
      · subst hu
        rw [if_pos rfl] at hset ⊢
        omega
      · rw [if_neg hu] at hset ⊢
        omega
  | stealFrom v =>
    simp only [pool_step, hD]
    split
    · exact hinvt
    · rename_i u h
      dsimp only
      have hv : v < s.queues.length := by
        by_contra hv
        rw [List.getD_eq_default] at h
        · simp at h
        · omega
      have hset := queuedCount_set t s.queues v (s.queues.getD v []).dropLast hv
      have hsplit : s.queues.getD v []
          = (s.queues.getD v []).dropLast ++ [u] :=
        (List.dropLast_append_getLast? u h).symm
      have hc : (s.queues.getD v []).count t
          = (s.queues.getD v []).dropLast.count t + (if u = t then 1 else 0) := by
        conv_lhs => rw [hsplit]
        rw [happ]
      rw [hc] at hset
      rw [happ]
      by_cases hu : u = t
      · subst hu
        rw [if_pos rfl] at hset ⊢
        omega
      · rw [if_neg hu] at hset ⊢
        omega

theorem pool_foldl_conserves (ops : List PoolOp) (s : PoolState)
    (hn : 0 < s.queues.length)
    (hinv : ∀ t, s.executed.count t + queuedCount t s.queues = s.submitted.count t) :
    ∀ t, (ops.foldl pool_step s).executed.count t
        + queuedCount t (ops.foldl pool_step s).queues
      = (ops.foldl pool_step s).submitted.count t := by
  induction ops generalizing s with
  | nil => exact hinv
  | cons op rest ih =>
    have hlen : 0 < (pool_step s op).queues.length := by
      rw [pool_step_queues_length]; exact hn
    exact ih (pool_step s op) hlen (pool_step_conserves s op hn hinv)

/-- C4: with at least one worker queue and no shutdown, every submitted
task is executed exactly once: at every reachable pool state the
executed tasks plus the still-queued tasks account exactly for the
submitted tasks, and once the queues have drained the multiset of
executed tasks equals the multiset of submitted tasks - no task is lost
and none runs twice. -/
theorem pool_tasks_execute_exactly_once (n : Nat) (ops : List PoolOp)
    (hn : 1 ≤ n) :
    (∀ t, (pool_run n ops).executed.count t
        + queuedCount t (pool_run n ops).queues
      = (pool_run n ops).submitted.count t) ∧
    ((∀ q ∈ (pool_run n ops).queues, q = []) →
      ∀ t, (pool_run n ops).executed.count t = (pool_run n ops).submitted.count t) := by
  have hinit : ∀ t, (initPool n).executed.count t + queuedCount t (initPool n).queues
      = (initPool n).submitted.count t := by
    intro t
    simp [initPool, queuedCount, List.map_replicate, List.sum_replicate]
  have hmain := pool_foldl_conserves ops (initPool n) (by simp [initPool]; omega) hinit
  refine ⟨hmain, fun hdrain t => ?_⟩
  have hq : queuedCount t (pool_run n ops).queues = 0 := by
    unfold queuedCount
    have : ∀ q ∈ (pool_run n ops).queues, q.count t = 0 := by
      intro q hq
      rw [hdrain q hq]
      simp
    rw [List.sum_eq_zero]
    intro x hx
    obtain ⟨q, hq1, hq2⟩ := List.mem_map.mp hx
    rw [← hq2]
    exact this q hq1
  have := hmain t
  unfold pool_run at *
  omega

/-- C4 witness: one worker, two tasks pushed and both popped; the
conservation identity and the drained-queue count equality hold. -/
theorem pool_tasks_execute_exactly_once_witness :
    1 ≤ 1 ∧
    ((∀ t, (pool_run 1 [PoolOp.push 7, PoolOp.push 9, PoolOp.popOwn 0, PoolOp.popOwn 0]).executed.count t
        + queuedCount t (pool_run 1 [PoolOp.push 7, PoolOp.push 9, PoolOp.popOwn 0, PoolOp.popOwn 0]).queues
      = (pool_run 1 [PoolOp.push 7, PoolOp.push 9, PoolOp.popOwn 0, PoolOp.popOwn 0]).submitted.count t) ∧
    ((∀ q ∈ (pool_run 1 [PoolOp.push 7, PoolOp.push 9, PoolOp.popOwn 0, PoolOp.popOwn 0]).queues, q = []) →
      ∀ t, (pool_run 1 [PoolOp.push 7, PoolOp.push 9, PoolOp.popOwn 0, PoolOp.popOwn 0]).executed.count t
        = (pool_run 1 [PoolOp.push 7, PoolOp.push 9, PoolOp.popOwn 0, PoolOp.popOwn 0]).submitted.count t)) :=
  ⟨by decide, pool_tasks_execute_exactly_once 1 _ (by decide)⟩

/-- C7: pool with a single queue: tasks a, b, c submitted in that order
all land in queue 0 (round robin over one queue) at the front, so the
owner's successive pop_front calls execute them most-recently-pushed
first: execution order c, b, a, leaving the queue empty. -/
theorem single_queue_lifo_order (a b c : TaskId) :
    (pool_run 1 [PoolOp.push a, PoolOp.push b, PoolOp.push c,
      PoolOp.popOwn 0, PoolOp.popOwn 0, PoolOp.popOwn 0]).executed = [c, b, a] ∧
    (pool_run 1 [PoolOp.push a, PoolOp.push b, PoolOp.push c,
      PoolOp.popOwn 0, PoolOp.popOwn 0, PoolOp.popOwn 0]).queues = [[]] := by
  constructor <;> simp [pool_run, pool_step, initPool]

/-- C5 counterexample: the steal scan of a two-worker pool for worker 0
visits its own queue (index 0 appears in the scan order) and visits 2
queues, not N - 1 = 1; the claim that the scan visits exactly the other
N - 1 queues and never its own is false of the code, whose loop runs
i = 0 .. N-1 and so ends on (my_index + N) mod N = my_index. -/
theorem steal_scan_visits_own_queue_cex :
    0 ∈ steal_scan_order 2 0 ∧ ¬ (steal_scan_order 2 0).length = 2 - 1 := by
  decide

theorem steal_tryList_eq_none_iff (qs : List (List TaskId)) (idxs : List Nat) :
    steal_tryList qs idxs = none ↔ ∀ idx ∈ idxs, qs.getD idx [] = [] := by
  induction idxs with
  | nil => simp [steal_tryList]
  | cons idx rest ih =>
    simp only [steal_tryList]
    cases h : (qs.getD idx []).getLast? with
    | some t =>
      simp only [h]
      constructor
      · intro habs
        exact absurd habs (by simp)
      · intro hall
        have := hall idx (by simp)
        rw [this] at h
        simp at h
    | none =>
      simp only [h, ih]
      rw [List.getLast?_eq_none_iff] at h
      constructor
      · intro hall idx2 hmem
        rcases List.mem_cons.mp hmem with rfl | hmem2
        · exact h
        · exact hall idx2 hmem2
      · intro hall idx2 hmem
        exact hall idx2 (List.mem_cons_of_mem _ hmem)

/-- C5 amended: when its own queue is empty, a worker's steal scan
visits all N queues, not the other N - 1: it tries pop_back on queues
(ownIndex + 1) mod N, (ownIndex + 2) mod N, ..., visiting each queue
exactly once, with its own queue visited last (at i = N - 1 the loop
index (ownIndex + 1 + i) mod N equals ownIndex); it takes the first
task found and goes idle only if all N attempts fail, which happens
exactly when every queue is empty. -/
theorem steal_scan_includes_own_queue_last (n my : Nat) (hmy : my < n) :
    (steal_scan_order n my).length = n ∧
    (steal_scan_order n my).Nodup ∧
    (∀ j, j < n → j ∈ steal_scan_order n my) ∧
    (steal_scan_order n my).getLast? = some my ∧
    (∀ i, i < n → (steal_scan_order n my).getD i n = (my + 1 + i) % n) ∧
    (∀ qs : List (List TaskId), qs.length = n →
      (steal_phase qs my = none ↔ ∀ q ∈ qs, q = [])) := by
  have hn : 0 < n := by omega
  have hinj : ∀ i j, i < n → j < n → (my + 1 + i) % n = (my + 1 + j) % n → i = j := by
    intro i j hi hj h
    have h2 : i % n = j % n := Nat.ModEq.add_left_cancel' (my + 1) h
    rwa [Nat.mod_eq_of_lt hi, Nat.mod_eq_of_lt hj] at h2
  refine ⟨by simp [steal_scan_order], ?_, ?_, ?_, ?_, ?_⟩
  · exact List.Nodup.map_on
      (fun x hx y hy hxy =>
        hinj x y (List.mem_range.mp hx) (List.mem_range.mp hy) hxy)
      (List.nodup_range n)
  · intro j hj
    have hsurj : Function.Surjective
        (fun i : Fin n => (⟨(my + 1 + i.val) % n, Nat.mod_lt _ hn⟩ : Fin n)) := by
      rw [← Finite.injective_iff_surjective]
      intro x y hxy
      exact Fin.ext (hinj x.val y.val x.isLt y.isLt (by simpa using congrArg Fin.val hxy))
    obtain ⟨i, hi⟩ := hsurj ⟨j, hj⟩
    refine List.mem_map.mpr ⟨i.val, List.mem_range.mpr i.isLt, ?_⟩
    simpa using congrArg Fin.val hi
  · rw [List.getLast?_eq_getElem?]
    have hlen : (steal_scan_order n my).length = n := by simp [steal_scan_order]
    rw [hlen]
    unfold steal_scan_order
    rw [List.getElem?_map, List.getElem?_range (by omega)]
    have harith : (my + 1 + (n - 1)) % n = my := by
      have h1 : my + 1 + (n - 1) = my + n := by omega
      rw [h1, Nat.add_mod_right, Nat.mod_eq_of_lt hmy]
    simp [harith]
  · intro i hi
    unfold steal_scan_order
    rw [List.getD_eq_getElem?_getD, List.getElem?_map, List.getElem?_range hi]
    rfl
  · intro qs hqs
    unfold steal_phase
    rw [hqs, steal_tryList_eq_none_iff]
    constructor
    · intro hall q hq
      obtain ⟨k, hk, hget⟩ := List.mem_iff_getElem.mp hq
      have hkn : k < n := by omega
      have hmem : k ∈ steal_scan_order n my := by
        have := (List.Nodup.map_on (fun x hx y hy hxy =>
          hinj x y (List.mem_range.mp hx) (List.mem_range.mp hy) hxy)
          (List.nodup_range n))
        -- reuse surjectivity argument
        have hsurj : Function.Surjective
            (fun i : Fin n => (⟨(my + 1 + i.val) % n, Nat.mod_lt _ hn⟩ : Fin n)) := by
          rw [← Finite.injective_iff_surjective]
          intro x y hxy
          exact Fin.ext (hinj x.val y.val x.isLt y.isLt (by simpa using congrArg Fin.val hxy))
        obtain ⟨i, hi⟩ := hsurj ⟨k, hkn⟩
        refine List.mem_map.mpr ⟨i.val, List.mem_range.mpr i.isLt, ?_⟩
        simpa using congrArg Fin.val hi
      have := hall k hmem
      rw [List.getD_eq_getElem?_getD] at this
      rw [List.getElem?_eq_getElem hk] at this
      simp at this
      rw [← hget, this]
    · intro hall idx hmem
      obtain ⟨i, hi, hidx⟩ := List.mem_map.mp hmem
      have hidxn : idx < n := by
        rw [← hidx]
        exact Nat.mod_lt _ hn
      have hidxlen : idx < qs.length := by omega
      have hq : qs.getD idx [] = qs[idx] := by
        rw [List.getD_eq_getElem?_getD, List.getElem?_eq_getElem hidxlen]
        rfl
      rw [hq]
      exact hall qs[idx] (List.getElem_mem hidxlen)

/-- C5 amended witness: concrete two-queue pool, worker 0. -/
theorem steal_scan_includes_own_queue_last_witness :
    0 < 2 ∧
    ((steal_scan_order 2 0).length = 2 ∧
     (steal_scan_order 2 0).Nodup ∧
     (∀ j, j < 2 → j ∈ steal_scan_order 2 0) ∧
     (steal_scan_order 2 0).getLast? = some 0 ∧
     (∀ i, i < 2 → (steal_scan_order 2 0).getD i 2 = (0 + 1 + i) % 2) ∧
     (∀ qs : List (List TaskId), qs.length = 2 →
       (steal_phase qs 0 = none ↔ ∀ q ∈ qs, q = []))) :=
  ⟨by decide, steal_scan_includes_own_queue_last 2 0 (by decide)⟩

/-- C6: the spawn policy of quicksort_job after a partition produces
sub-ranges [left, r] and [l, right] is exactly the specified one: both
exceed the threshold: spawn exactly one, always the left, inline the
right; exactly one exceeds: spawn that one, inline the other; neither
exceeds: spawn nothing, both inline (no task created). -/
theorem spawn_policy_matches_spec (left r l right threshold : Int) :
    (spawnedRanges (schedule_children left r l right threshold),
     inlineRanges (schedule_children left r l right threshold))
      = spec_schedule left r l right threshold := by
  unfold schedule_children spec_schedule
  split_ifs <;> rfl

/-- C8: the wrapper pushed by spawn_task_in_pool never lets the task
body's error escape: its own outcome is success whatever the body does
(the catch-all boundary records the error instead), so a worker running
wrapped tasks back to back never aborts its loop and completes every
task handed to it. -/
theorem wrapper_never_leaks_errors (s : QuicksortState)
    (bodies : List (Except Nat Unit)) :
    (∀ b, (run_wrapped s b).2 = Except.ok ()) ∧
    (worker_run s bodies).2 = bodies.length := by
  constructor
  · intro b
    rfl
  · induction bodies generalizing s with
    | nil => rfl
    | cons b rest ih =>
      show (worker_run s (b :: rest)).2 = rest.length + 1
      have hred : worker_run s (b :: rest)
          = (let p := worker_run (run_wrapped s b).1 rest; (p.1, p.2 + 1)) := rfl
      rw [hred]
      simpa using ih (run_wrapped s b).1

/- ===================== Theorems: fork-join completion ===================== -/

theorem fjTrace_succ (ev : Nat → FJAct) (k : Nat) :
    fjTrace ev (k + 1) = fjTrace ev k ++ [ev k] := by
  simp [fjTrace, List.range_succ]

theorem fjRun_succ (ev : Nat → FJAct) (k : Nat) :
    fjRun ev (k + 1) = fj_step (fjRun ev k) (ev k) := by
  unfold fjRun
  rw [fjTrace_succ, List.foldl_append]
  rfl

theorem fj_step_counter_inc (s : QuicksortState) (t : Nat) :
    (fj_step s (FJAct.inc t)).counter = s.counter + 1 := rfl

theorem fj_step_counter_exec (s : QuicksortState) (t : Nat) (e : Option Nat) :
    (fj_step s (FJAct.exec t e)).counter = s.counter := by
  cases e with
  | none => rfl
  | some x =>
    simp only [fj_step]
    split <;> rfl

theorem fj_step_counter_dec (s : QuicksortState) (t : Nat) :
    (fj_step s (FJAct.dec t)).counter = s.counter - 1 := by
  simp only [fj_step]
  split <;> rfl

theorem fj_step_prom_inc (s : QuicksortState) (t : Nat) :
    (fj_step s (FJAct.inc t)).prom = s.prom := rfl

theorem fj_step_prom_exec (s : QuicksortState) (t : Nat) (e : Option Nat) :
    (fj_step s (FJAct.exec t e)).prom = s.prom := by
  cases e with
  | none => rfl
  | some x =>
    simp only [fj_step]
    split <;> rfl

theorem fj_step_prom_dec (s : QuicksortState) (t : Nat) :
    (fj_step s (FJAct.dec t)).prom
      = if s.counter = 1 then
          s.prom ++ [if s.except_set then Except.error (s.except_ptr.getD 0) else Except.ok ()]
        else s.prom := by
  simp only [fj_step, finalizeQS]
  split <;> simp_all

theorem fj_step_slot_inc (s : QuicksortState) (t : Nat) :
    (fj_step s (FJAct.inc t)).except_set = s.except_set ∧
    (fj_step s (FJAct.inc t)).except_ptr = s.except_ptr := ⟨rfl, rfl⟩

theorem fj_step_slot_dec (s : QuicksortState) (t : Nat) :
    (fj_step s (FJAct.dec t)).except_set = s.except_set ∧
    (fj_step s (FJAct.dec t)).except_ptr = s.except_ptr := by
  simp only [fj_step, finalizeQS]
  split <;> exact ⟨rfl, rfl⟩

theorem fj_foldl_slot (es : List FJAct) (s : QuicksortState) :
    ((es.foldl fj_step s).except_set = (s.except_set || (firstFailure es).isSome)) ∧
    ((es.foldl fj_step s).except_ptr
      = if s.except_set then s.except_ptr
        else (firstFailure es).elim s.except_ptr some) := by
  induction es generalizing s with
  | nil => simp [firstFailure]
  | cons a rest ih =>
    simp only [List.foldl_cons]
    cases a with
    | inc t =>
      simpa [firstFailure, List.findSome?_cons, recErrOf, fj_step]
        using ih (fj_step s (FJAct.inc t))
    | dec t =>
      have hslot := fj_step_slot_dec s t
      have h2 := ih (fj_step s (FJAct.dec t))
      rw [hslot.1, hslot.2] at h2
      simpa [firstFailure, List.findSome?_cons, recErrOf] using h2
    | exec t e =>
      cases e with
      | none =>
        simpa [firstFailure, List.findSome?_cons, recErrOf, fj_step]
          using ih (fj_step s (FJAct.exec t none))
      | some x =>
        simp only [firstFailure, List.findSome?_cons, recErrOf]
        by_cases hs : s.except_set
        · have hstep : fj_step s (FJAct.exec t (some x)) = s := by
            simp [fj_step, hs]
          rw [hstep]
          have h2 := ih s
          simp only [firstFailure] at h2
          constructor
          · rw [h2.1, hs]
            simp
          · rw [h2.2]
            simp [hs]
        · have hstep : fj_step s (FJAct.exec t (some x))
              = { s with except_ptr := some x, except_set := true } := by
            simp [fj_step, hs]
          rw [hstep]
          have h2 := ih { s with except_ptr := some x, except_set := true }
          simp only [firstFailure] at h2
          constructor
          · rw [h2.1]
            simp [hs]
          · rw [h2.2]
            simp [hs]

theorem posBefore_zero (f : Nat → Nat) (n : Nat) : posBefore f n 0 = 0 := by
  simp [posBefore]

theorem posBefore_succ (f : Nat → Nat) (n k : Nat) :
    posBefore f n (k + 1)
      = posBefore f n k + ((Finset.range n).filter (fun i => f i = k)).card := by
  unfold posBefore
  rw [← Finset.card_union_of_disjoint]
  · congr 1
    ext i
    simp only [Finset.mem_union, Finset.mem_filter, Finset.mem_range]
    constructor
    · rintro ⟨hi, hf⟩
      by_cases hfk : f i = k
      · exact Or.inr ⟨hi, hfk⟩
      · exact Or.inl ⟨hi, by omega⟩
    · rintro (⟨hi, hf⟩ | ⟨hi, hf⟩) <;> exact ⟨hi, by omega⟩
  · rw [Finset.disjoint_left]
    intro i h1 h2
    simp only [Finset.mem_filter, Finset.mem_range] at h1 h2
    omega

theorem filter_eq_card_one (f : Nat → Nat) (n k i0 : Nat) (hi0 : i0 < n) (hf : f i0 = k)
    (huniq : ∀ j, j < n → f j = k → j = i0) :
    ((Finset.range n).filter (fun i => f i = k)).card = 1 := by
  have hset : (Finset.range n).filter (fun i => f i = k) = {i0} := by
    ext j
    simp only [Finset.mem_filter, Finset.mem_range, Finset.mem_singleton]
    constructor
    · rintro ⟨hj, hjk⟩
      exact huniq j hj hjk
    · rintro rfl
      exact ⟨hi0, hf⟩
  rw [hset]
  rfl

theorem filter_eq_card_zero (f : Nat → Nat) (n k : Nat)
    (hnone : ∀ j, j < n → f j ≠ k) :
    ((Finset.range n).filter (fun i => f i = k)).card = 0 := by
  have hset : (Finset.range n).filter (fun i => f i = k) = ∅ := by
    ext j
    simp only [Finset.mem_filter, Finset.mem_range, Finset.not_mem_empty, iff_false]
    rintro ⟨hj, hjk⟩
    exact hnone j hj hjk
  rw [hset]
  rfl

theorem fj_counter {n : Nat} {parent pinc pexec pdec : Nat → Nat}
    {errOf : Nat → Option Nat} {ev : Nat → FJAct}
    (H : ForkJoinShape n parent pinc pexec pdec errOf ev) :
    ∀ k, k ≤ 3 * n →
      (fjRun ev k).counter = (posBefore pinc n k : Int) - posBefore pdec n k := by
  intro k
  induction k with
  | zero =>
    intro _
    simp [fjRun, fjTrace, initQS, posBefore_zero]
  | succ k ih =>
    intro hk
    have hck := ih (by omega)
    rw [fjRun_succ]
    obtain ⟨i, hi, hcase⟩ := H.cover k (by omega)
    rcases hcase with hpi | hpe | hpd
    · have hev : ev k = FJAct.inc i := by rw [hpi]; exact H.evInc i hi
      rw [hev, fj_step_counter_inc, hck]
      have h1 : posBefore pinc n (k + 1) = posBefore pinc n k + 1 := by
        rw [posBefore_succ, filter_eq_card_one pinc n k i hi hpi.symm]
        intro j hj hjk
        have e1 := H.evInc j hj
        rw [hjk, hev] at e1
        simpa using e1.symm
      have h2 : posBefore pdec n (k + 1) = posBefore pdec n k := by
        rw [posBefore_succ, filter_eq_card_zero]
        · omega
        · intro j hj hjk
          have e1 := H.evDec j hj
          rw [hjk, hev] at e1
          exact absurd e1 (by simp)
      rw [h1, h2]
      push_cast
      ring
    · have hev : ev k = FJAct.exec i (errOf i) := by rw [hpe]; exact H.evExec i hi
      rw [hev, fj_step_counter_exec, hck]
      have h1 : posBefore pinc n (k + 1) = posBefore pinc n k := by
        rw [posBefore_succ, filter_eq_card_zero]
        · omega
        · intro j hj hjk
          have e1 := H.evInc j hj
          rw [hjk, hev] at e1
          exact absurd e1 (by simp)
      have h2 : posBefore pdec n (k + 1) = posBefore pdec n k := by
        rw [posBefore_succ, filter_eq_card_zero]
        · omega
        · intro j hj hjk
          have e1 := H.evDec j hj
          rw [hjk, hev] at e1
          exact absurd e1 (by simp)
      rw [h1, h2]
    · have hev : ev k = FJAct.dec i := by rw [hpd]; exact H.evDec i hi
      rw [hev, fj_step_counter_dec, hck]
      have h1 : posBefore pinc n (k + 1) = posBefore pinc n k := by
        rw [posBefore_succ, filter_eq_card_zero]
        · omega
        · intro j hj hjk
          have e1 := H.evInc j hj
          rw [hjk, hev] at e1
          exact absurd e1 (by simp)
      have h2 : posBefore pdec n (k + 1) = posBefore pdec n k + 1 := by
        rw [posBefore_succ, filter_eq_card_one pdec n k i hi hpd.symm]
        intro j hj hjk
        have e1 := H.evDec j hj
        rw [hjk, hev] at e1
        simpa using e1.symm
      rw [h1, h2]
      push_cast
      ring

theorem fj_posBefore_decomp {n : Nat} {parent pinc pexec pdec : Nat → Nat}
    {errOf : Nat → Option Nat} {ev : Nat → FJAct}
    (H : ForkJoinShape n parent pinc pexec pdec errOf ev) (k : Nat) :
    posBefore pinc n k = posBefore pdec n k + (activeAt pinc pdec n k).card := by
  unfold posBefore activeAt
  have hsub : (Finset.range n).filter (fun i => pdec i < k)
      ⊆ (Finset.range n).filter (fun i => pinc i < k) := by
    intro j hj
    simp only [Finset.mem_filter, Finset.mem_range] at hj ⊢
    have h1 := H.incLt j hj.1
    have h2 := H.execLt j hj.1
    exact ⟨hj.1, by omega⟩
  have hsd : (Finset.range n).filter (fun i => pinc i < k)
        \ (Finset.range n).filter (fun i => pdec i < k)
      = (Finset.range n).filter (fun i => pinc i < k ∧ k ≤ pdec i) := by
    ext j
    simp only [Finset.mem_sdiff, Finset.mem_filter, Finset.mem_range]
    constructor
    · rintro ⟨⟨hj, hji⟩, hnot⟩
      refine ⟨hj, hji, ?_⟩
      by_contra hlt
      exact hnot ⟨hj, by omega⟩
    · rintro ⟨hj, hji, hjd⟩
      exact ⟨⟨hj, hji⟩, fun h => by omega⟩
  have hcard := Finset.card_sdiff hsub
  rw [hsd] at hcard
  have hle := Finset.card_le_card hsub
  omega

theorem fj_no_late {n : Nat} {parent pinc pexec pdec : Nat → Nat}
    {errOf : Nat → Option Nat} {ev : Nat → FJAct}
    (H : ForkJoinShape n parent pinc pexec pdec errOf ev) (k : Nat) (hk : 1 ≤ k)
    (hempty : activeAt pinc pdec n k = ∅) :
    ∀ i, i < n → pinc i < k ∧ pdec i < k := by
  have hinc : ∀ i, i < n → pinc i < k := by
    by_contra hcon
    push_neg at hcon
    obtain ⟨i0, hi0, hk0⟩ := hcon
    have hT0 : i0 ∈ (Finset.range n).filter (fun i => k ≤ pinc i) := by
      simp only [Finset.mem_filter, Finset.mem_range]
      exact ⟨hi0, hk0⟩
    obtain ⟨j, hjT, hjmin⟩ :=
      Finset.exists_min_image ((Finset.range n).filter (fun i => k ≤ pinc i)) pinc ⟨i0, hT0⟩
    simp only [Finset.mem_filter, Finset.mem_range] at hjT
    obtain ⟨hjn, hjk⟩ := hjT
    have hj0 : j ≠ 0 := by
      intro h
      rw [h, H.rootFirst] at hjk
      omega
    obtain ⟨hpn, hpi, hpd⟩ := H.nest j hjn hj0
    have hplt : pinc (parent j) < k := by
      by_contra hge
      have hmem : parent j ∈ (Finset.range n).filter (fun i => k ≤ pinc i) := by
        simp only [Finset.mem_filter, Finset.mem_range]
        exact ⟨hpn, by omega⟩
      have := hjmin (parent j) hmem
      omega
    have hmem : parent j ∈ activeAt pinc pdec n k := by
      simp only [activeAt, Finset.mem_filter, Finset.mem_range]
      exact ⟨hpn, hplt, by omega⟩
    rw [hempty] at hmem
    exact absurd hmem (Finset.not_mem_empty _)
  intro i hi
  refine ⟨hinc i hi, ?_⟩
  by_contra hd
  push_neg at hd
  have hmem : i ∈ activeAt pinc pdec n k := by
    simp only [activeAt, Finset.mem_filter, Finset.mem_range]
    exact ⟨hi, hinc i hi, hd⟩
  rw [hempty] at hmem
  exact absurd hmem (Finset.not_mem_empty _)

theorem fj_last_dec {n : Nat} {parent pinc pexec pdec : Nat → Nat}
    {errOf : Nat → Option Nat} {ev : Nat → FJAct}
    (H : ForkJoinShape n parent pinc pexec pdec errOf ev) :
    ∃ i, i < n ∧ pdec i = 3 * n - 1 := by
  obtain ⟨i, hi, hcase⟩ := H.cover (3 * n - 1) (by have := H.npos; omega)
  rcases hcase with h | h | h
  · exfalso
    have h1 := H.incLt i hi
    have h2 := H.execLt i hi
    have h3 := H.decBnd i hi
    omega
  · exfalso
    have h2 := H.execLt i hi
    have h3 := H.decBnd i hi
    omega
  · exact ⟨i, hi, h.symm⟩

theorem fj_active_nonempty {n : Nat} {parent pinc pexec pdec : Nat → Nat}
    {errOf : Nat → Option Nat} {ev : Nat → FJAct}
    (H : ForkJoinShape n parent pinc pexec pdec errOf ev) (k : Nat)
    (hk1 : 1 ≤ k) (hk2 : k ≤ 3 * n - 1) :
    (activeAt pinc pdec n k).Nonempty := by
  rw [Finset.nonempty_iff_ne_empty]
  intro hempty
  obtain ⟨i, hi, hdi⟩ := fj_last_dec H
  have := (fj_no_late H k hk1 hempty i hi).2
  omega

theorem fj_prom_empty {n : Nat} {parent pinc pexec pdec : Nat → Nat}
    {errOf : Nat → Option Nat} {ev : Nat → FJAct}
    (H : ForkJoinShape n parent pinc pexec pdec errOf ev) :
    ∀ k, k ≤ 3 * n - 1 → (fjRun ev k).prom = [] := by
  intro k
  induction k with
  | zero =>
    intro _
    rfl
  | succ k ih =>
    intro hk
    have hprev := ih (by omega)
    rw [fjRun_succ]
    obtain ⟨i, hi, hcase⟩ := H.cover k (by have := H.npos; omega)
    rcases hcase with h | h | h
    · have hev : ev k = FJAct.inc i := by rw [h]; exact H.evInc i hi
      rw [hev, fj_step_prom_inc]
      exact hprev
    · have hev : ev k = FJAct.exec i (errOf i) := by rw [h]; exact H.evExec i hi
      rw [hev, fj_step_prom_exec]
      exact hprev
    · have hev : ev k = FJAct.dec i := by rw [h]; exact H.evDec i hi
      rw [hev, fj_step_prom_dec]
      have hik : pdec i = k := h.symm
      have hkpos : 2 ≤ k := by
        have h1 := H.incLt i hi
        have h2 := H.execLt i hi
        omega
      have hiactive : i ∈ activeAt pinc pdec n k := by
        simp only [activeAt, Finset.mem_filter, Finset.mem_range]
        have h1 := H.incLt i hi
        have h2 := H.execLt i hi
        exact ⟨hi, by omega, by omega⟩
      have herase : activeAt pinc pdec n (k + 1) = (activeAt pinc pdec n k).erase i := by
        ext j
        simp only [activeAt, Finset.mem_filter, Finset.mem_range, Finset.mem_erase]
        constructor
        · rintro ⟨hj, hj1, hj2⟩
          have hne : j ≠ i := by
            intro he
            subst he
            omega
          have hj1' : pinc j < k := by
            rcases Nat.lt_succ_iff_lt_or_eq.mp hj1 with h' | h'
            · exact h'
            · exfalso
              have e1 := H.evInc j hj
              rw [h', hev] at e1
              exact absurd e1 (by simp)
          exact ⟨hne, hj, hj1', by omega⟩
        · rintro ⟨hne, hj, hj1, hj2⟩
          refine ⟨hj, by omega, ?_⟩
          have hdne : pdec j ≠ k := by
            intro he
            have e1 := H.evDec j hj
            rw [he, hev] at e1
            have : i = j := by simpa using e1
            exact hne this.symm
          omega
      have hnon : (activeAt pinc pdec n (k + 1)).Nonempty :=
        fj_active_nonempty H (k + 1) (by omega) (by omega)
      have hcard : 2 ≤ (activeAt pinc pdec n k).card := by
        rw [herase] at hnon
        have hpos : 0 < ((activeAt pinc pdec n k).erase i).card :=
          Finset.card_pos.mpr hnon
        have hce := Finset.card_erase_of_mem hiactive
        omega
      have hcneq : (fjRun ev k).counter ≠ 1 := by
        rw [fj_counter H k (by omega)]
        have hdecomp := fj_posBefore_decomp H k
        omega
      rw [if_neg hcneq]
      exact hprev

theorem fj_final {n : Nat} {parent pinc pexec pdec : Nat → Nat}
    {errOf : Nat → Option Nat} {ev : Nat → FJAct}
    (H : ForkJoinShape n parent pinc pexec pdec errOf ev) :
    (fjRun ev (3 * n)).prom = [fjOutcome (fjTrace ev (3 * n))] ∧
    (fjRun ev (3 * n - 1)).counter = 1 ∧
    (fjRun ev (3 * n)).counter = 0 := by
  have hn := H.npos
  obtain ⟨i, hi, hdi⟩ := fj_last_dec H
  have h3 : 3 * n = (3 * n - 1) + 1 := by omega
  have hactive : activeAt pinc pdec n (3 * n - 1) = {i} := by
    ext j
    simp only [activeAt, Finset.mem_filter, Finset.mem_range, Finset.mem_singleton]
    constructor
    · rintro ⟨hj, hj1, hj2⟩
      have hle := H.decBnd j hj
      have hjd : pdec j = 3 * n - 1 := by omega
      have e1 := H.evDec j hj
      rw [hjd] at e1
      have e2 := H.evDec i hi
      rw [hdi] at e2
      rw [e1] at e2
      simpa using e2
    · rintro rfl
      have h1 := H.incLt j hi
      have h2 := H.execLt j hi
      exact ⟨hi, by omega, by omega⟩
  have hc1 : (fjRun ev (3 * n - 1)).counter = 1 := by
    rw [fj_counter H (3 * n - 1) (by omega)]
    have hdecomp := fj_posBefore_decomp H (3 * n - 1)
    rw [hactive, Finset.card_singleton] at hdecomp
    omega
  have hcfull : (fjRun ev (3 * n)).counter = 0 := by
    rw [fj_counter H (3 * n) (le_refl _)]
    have hallinc : posBefore pinc n (3 * n) = n := by
      unfold posBefore
      rw [Finset.filter_true_of_mem, Finset.card_range]
      intro j hj
      rw [Finset.mem_range] at hj
      have h1 := H.incLt j hj
      have h2 := H.execLt j hj
      have h3 := H.decBnd j hj
      omega
    have halldec : posBefore pdec n (3 * n) = n := by
      unfold posBefore
      rw [Finset.filter_true_of_mem, Finset.card_range]
      intro j hj
      rw [Finset.mem_range] at hj
      exact H.decBnd j hj
    rw [hallinc, halldec]
    ring
  refine ⟨?_, hc1, hcfull⟩
  have hev : ev (3 * n - 1) = FJAct.dec i := by rw [← hdi]; exact H.evDec i hi
  rw [h3, fjRun_succ, hev, fj_step_prom_dec, if_pos hc1,
    fj_prom_empty H (3 * n - 1) (le_refl _)]
  have hslot := fj_foldl_slot (fjTrace ev (3 * n - 1)) initQS
  rw [show initQS.except_set = false from rfl, show initQS.except_ptr = none from rfl] at hslot
  simp only [Bool.false_or, if_false, Bool.false_eq_true] at hslot
  have hff : firstFailure (fjTrace ev ((3 * n - 1) + 1)) = firstFailure (fjTrace ev (3 * n - 1)) := by
    rw [fjTrace_succ, hev]
    unfold firstFailure
    rw [List.findSome?_append]
    cases hx : List.findSome? recErrOf (fjTrace ev (3 * n - 1)) <;>
      simp [recErrOf, List.findSome?, hx]
  cases hcase : firstFailure (fjTrace ev (3 * n - 1)) with
  | none =>
    rw [hcase] at hslot
    have hset : (fjRun ev (3 * n - 1)).except_set = false := hslot.1
    rw [hset]
    simp only [if_false, Bool.false_eq_true, List.nil_append]
    unfold fjOutcome
    rw [hff, hcase]
  | some e =>
    rw [hcase] at hslot
    have hset : (fjRun ev (3 * n - 1)).except_set = true := hslot.1
    have hptr : (fjRun ev (3 * n - 1)).except_ptr = some e := hslot.2
    rw [hset, hptr]
    simp only [if_true, List.nil_append]
    unfold fjOutcome
    rw [hff, hcase]
    rfl

theorem fjTrace_split (ev : Nat → FJAct) (j k : Nat) (hjk : j ≤ k) :
    fjTrace ev k = fjTrace ev j ++ (List.range (k - j)).map (fun m => ev (j + m)) := by
  unfold fjTrace
  conv_lhs => rw [show k = j + (k - j) by omega]
  rw [List.range_add, List.map_append, List.map_map]
  rfl

/-- C1: for every fork-join task tree execution (any interleaving of the
spawn-time increments, guarded body runs and decrements respecting the
tree's happens-before facts), the promise is set exactly once, and it is
set exactly at the step where the pending counter falls from 1 to 0: at
every proper prefix nothing has been delivered to the promise, the
counter is 1 just before the last event and 0 after it, and exactly one
value has been delivered at the end. -/
theorem fork_join_completion_fires_once
    (n : Nat) (parent pinc pexec pdec : Nat → Nat) (errOf : Nat → Option Nat)
    (ev : Nat → FJAct) (H : ForkJoinShape n parent pinc pexec pdec errOf ev) :
    (∀ k, k < 3 * n → (fjRun ev k).prom = []) ∧
    (fjRun ev (3 * n)).prom.length = 1 ∧
    (fjRun ev (3 * n - 1)).counter = 1 ∧
    (fjRun ev (3 * n)).counter = 0 := by
  obtain ⟨h1, h2, h3⟩ := fj_final H
  exact ⟨fun k hk => fj_prom_empty H k (by omega), by rw [h1]; rfl, h2, h3⟩

/-- C1 witness: the one-task tree whose trace is inc, exec (no error),
dec. -/
theorem fork_join_completion_fires_once_witness :
    (∀ k, k < 3 * 1 →
      (fjRun (fun p => if p = 0 then FJAct.inc 0
        else if p = 1 then FJAct.exec 0 none else FJAct.dec 0) k).prom = []) ∧
    (fjRun (fun p => if p = 0 then FJAct.inc 0
      else if p = 1 then FJAct.exec 0 none else FJAct.dec 0) (3 * 1)).prom.length = 1 ∧
    (fjRun (fun p => if p = 0 then FJAct.inc 0
      else if p = 1 then FJAct.exec 0 none else FJAct.dec 0) (3 * 1 - 1)).counter = 1 ∧
    (fjRun (fun p => if p = 0 then FJAct.inc 0
      else if p = 1 then FJAct.exec 0 none else FJAct.dec 0) (3 * 1)).counter = 0 := by
  have hshape : ForkJoinShape 1 (fun _ => 0) (fun _ => 0) (fun _ => 1) (fun _ => 2)
      (fun _ => none)
      (fun p => if p = 0 then FJAct.inc 0
        else if p = 1 then FJAct.exec 0 none else FJAct.dec 0) := by
    constructor
    · decide
    · intro i hi
      have h0 : i = 0 := by omega
      subst h0
      rfl
    · intro i hi
      have h0 : i = 0 := by omega
      subst h0
      rfl
    · intro i hi
      have h0 : i = 0 := by omega
      subst h0
      rfl
    · intro i hi
      exact Nat.zero_lt_one
    · intro i hi
      exact Nat.one_lt_two
    · intro i hi
      show (2 : Nat) < 3 * 1
      decide
    · intro p hp
      refine ⟨0, Nat.one_pos, ?_⟩
      interval_cases p
      · exact Or.inl rfl
      · exact Or.inr (Or.inl rfl)
      · exact Or.inr (Or.inr rfl)
    · rfl
    · intro i hi hne
      have h0 : i = 0 := by omega
      exact absurd h0 hne
  exact fork_join_completion_fires_once 1 _ _ _ _ _ _ hshape

/-- C2: the outcome delivered to the promise of a fork-join task tree is
exactly determined by the first task-body error in wrapper-arrival
order: the single delivered value is success when no body failed and the
first recorded error otherwise; it is delivered only at the very end,
when the pending counter reaches zero; and the error slot, once set, is
never overwritten - at every later point the flag is still set and the
stored error is unchanged. -/
theorem fork_join_first_error_propagates
    (n : Nat) (parent pinc pexec pdec : Nat → Nat) (errOf : Nat → Option Nat)
    (ev : Nat → FJAct) (H : ForkJoinShape n parent pinc pexec pdec errOf ev) :
    (fjRun ev (3 * n)).prom = [fjOutcome (fjTrace ev (3 * n))] ∧
    (∀ k, k < 3 * n → (fjRun ev k).prom = []) ∧
    (∀ j k, j ≤ k → (fjRun ev j).except_set = true →
      (fjRun ev k).except_set = true ∧
      (fjRun ev k).except_ptr = (fjRun ev j).except_ptr) := by
  refine ⟨(fj_final H).1, fun k hk => fj_prom_empty H k (by omega), ?_⟩
  intro j k hjk hset
  have hsj := fj_foldl_slot (fjTrace ev j) initQS
  have hsk := fj_foldl_slot (fjTrace ev k) initQS
  have hsj1 : (fjRun ev j).except_set = (firstFailure (fjTrace ev j)).isSome := by
    simpa [initQS] using hsj.1
  have hsj2 : (fjRun ev j).except_ptr
      = (firstFailure (fjTrace ev j)).elim none some := by
    simpa [initQS] using hsj.2
  have hsk1 : (fjRun ev k).except_set = (firstFailure (fjTrace ev k)).isSome := by
    simpa [initQS] using hsk.1
  have hsk2 : (fjRun ev k).except_ptr
      = (firstFailure (fjTrace ev k)).elim none some := by
    simpa [initQS] using hsk.2
  rw [hsj1] at hset
  obtain ⟨e, he⟩ := Option.isSome_iff_exists.mp hset
  have hk : firstFailure (fjTrace ev k) = some e := by
    rw [fjTrace_split ev j k hjk]
    unfold firstFailure at he ⊢
    rw [List.findSome?_append, he]
    rfl
  refine ⟨by rw [hsk1, hk]; rfl, ?_⟩
  rw [hsk2, hsj2, hk, he]

/-- C2 witness: the one-task tree whose body raises error 7; the
delivered outcome is Except.error 7. -/
theorem fork_join_first_error_propagates_witness :
    (fjRun (fun p => if p = 0 then FJAct.inc 0
      else if p = 1 then FJAct.exec 0 (some 7) else FJAct.dec 0) (3 * 1)).prom
      = [fjOutcome (fjTrace (fun p => if p = 0 then FJAct.inc 0
          else if p = 1 then FJAct.exec 0 (some 7) else FJAct.dec 0) (3 * 1))] ∧
    (∀ k, k < 3 * 1 →
      (fjRun (fun p => if p = 0 then FJAct.inc 0
        else if p = 1 then FJAct.exec 0 (some 7) else FJAct.dec 0) k).prom = []) ∧
    (∀ j k, j ≤ k →
      (fjRun (fun p => if p = 0 then FJAct.inc 0
        else if p = 1 then FJAct.exec 0 (some 7) else FJAct.dec 0) j).except_set = true →
      (fjRun (fun p => if p = 0 then FJAct.inc 0
        else if p = 1 then FJAct.exec 0 (some 7) else FJAct.dec 0) k).except_set = true ∧
      (fjRun (fun p => if p = 0 then FJAct.inc 0
        else if p = 1 then FJAct.exec 0 (some 7) else FJAct.dec 0) k).except_ptr
        = (fjRun (fun p => if p = 0 then FJAct.inc 0
            else if p = 1 then FJAct.exec 0 (some 7) else FJAct.dec 0) j).except_ptr) := by
  have hshape : ForkJoinShape 1 (fun _ => 0) (fun _ => 0) (fun _ => 1) (fun _ => 2)
      (fun _ => some 7)
      (fun p => if p = 0 then FJAct.inc 0
        else if p = 1 then FJAct.exec 0 (some 7) else FJAct.dec 0) := by
    constructor
    · decide
    · intro i hi
      have h0 : i = 0 := by omega
      subst h0
      rfl
    · intro i hi
      have h0 : i = 0 := by omega
      subst h0
      rfl
    · intro i hi
      have h0 : i = 0 := by omega
      subst h0
      rfl
    · intro i hi
      exact Nat.zero_lt_one
    · intro i hi
      exact Nat.one_lt_two
    · intro i hi
      show (2 : Nat) < 3 * 1
      decide
    · intro p hp
      refine ⟨0, Nat.one_pos, ?_⟩
      interval_cases p
      · exact Or.inl rfl
      · exact Or.inr (Or.inl rfl)
      · exact Or.inr (Or.inr rfl)
    · rfl
    · intro i hi hne
      have h0 : i = 0 := by omega
      exact absurd h0 hne
  exact fork_join_first_error_propagates 1 _ _ _ _ _ _ hshape

/- ===================== Theorems: quicksort ===================== -/

theorem getD_eq_getElem (b : List Int) (k : Nat) (h : k < b.length) :
    b.getD k 0 = b[k] := by
  rw [List.getD_eq_getElem?_getD, List.getElem?_eq_getElem h]
  rfl

theorem writeA_length (a : List Int) (i : Int) (v : Int) :
    (writeA a i v).length = a.length := by
  simp [writeA]

theorem swapA_length (a : List Int) (i j : Int) :
    (swapA a i j).length = a.length := by
  simp [swapA, writeA]

theorem readA_writeA_eq (a : List Int) (i : Int) (v : Int)
    (h : i.toNat < a.length) :
    readA (writeA a i v) i = v := by
  unfold readA writeA
  rw [List.getD_eq_getElem?_getD, List.getElem?_set]
  simp [h]

theorem readA_writeA_ne (a : List Int) (i j : Int) (v : Int)
    (h : i.toNat ≠ j.toNat) :
    readA (writeA a i v) j = readA a j := by
  unfold readA writeA
  rw [List.getD_eq_getElem?_getD, List.getElem?_set, if_neg h,
    ← List.getD_eq_getElem?_getD]

theorem readA_swapA_left (a : List Int) (i j : Int)
    (hi : i.toNat < a.length) (hj : j.toNat < a.length) :
    readA (swapA a i j) i = readA a j := by
  unfold swapA
  by_cases hij : i.toNat = j.toNat
  · have hsame : readA a i = readA a j := by
      unfold readA
      rw [hij]
    rw [show writeA (writeA a i (readA a j)) j (readA a i)
        = writeA (writeA a i (readA a j)) j (readA a i) from rfl]
    have : readA (writeA (writeA a i (readA a j)) j (readA a i)) i
        = readA a i := by
      unfold readA writeA
      rw [List.getD_eq_getElem?_getD, List.getElem?_set, hij, if_pos rfl]
      simp [List.length_set, hj]
    rw [this, hsame]
  · rw [readA_writeA_ne _ _ _ _ (fun h => hij h.symm), readA_writeA_eq _ _ _ hi]

theorem readA_swapA_right (a : List Int) (i j : Int)
    (hj : j.toNat < a.length) :
    readA (swapA a i j) j = readA a i := by
  unfold swapA
  rw [readA_writeA_eq]
  rw [writeA_length]
  exact hj

theorem readA_swapA_other (a : List Int) (i j k : Int)
    (hki : k.toNat ≠ i.toNat) (hkj : k.toNat ≠ j.toNat) :
    readA (swapA a i j) k = readA a k := by
  unfold swapA
  rw [readA_writeA_ne _ _ _ _ (fun h => hkj h.symm),
    readA_writeA_ne _ _ _ _ (fun h => hki h.symm)]

theorem count_indicator_le (a : List Int) (k : Nat) (x : Int) (h : k < a.length) :
    (if a[k] = x then 1 else 0) ≤ a.count x := by
  by_cases hx : a[k] = x
  · rw [if_pos hx]
    have hmem : x ∈ a := hx ▸ List.getElem_mem h
    exact List.count_pos_iff.mpr hmem
  · rw [if_neg hx]
    exact Nat.zero_le _

theorem swapA_perm (a : List Int) (i j : Int)
    (hi : i.toNat < a.length) (hj : j.toNat < a.length) :
    (swapA a i j).Perm a := by
  rw [List.perm_iff_count]
  intro x
  unfold swapA writeA readA
  have hj2 : j.toNat < (a.set i.toNat (a.getD j.toNat 0)).length := by
    simpa using hj
  rw [List.count_set _ _ _ _ hj2, List.count_set _ _ _ _ hi]
  have hset_get : (a.set i.toNat (a.getD j.toNat 0))[j.toNat]
      = if i.toNat = j.toNat then a.getD j.toNat 0 else a[j.toNat] :=
    List.getElem_set _
  have hgi : a.getD i.toNat 0 = a[i.toNat] := getD_eq_getElem a i.toNat hi
  have hgj : a.getD j.toNat 0 = a[j.toNat] := getD_eq_getElem a j.toNat hj
  have hci := count_indicator_le a i.toNat x hi
  have hcj := count_indicator_le a j.toNat x hj
  rw [hset_get, hgi, hgj]
  simp only [beq_iff_eq]
  by_cases hij : i.toNat = j.toNat
  · have hgg : a[i.toNat] = a[j.toNat] := by rw [← hgi, ← hgj, hij]
    rw [if_pos hij]
    rw [hgg] at hci ⊢
    split_ifs at hci hcj ⊢ <;> omega
  · rw [if_neg hij]
    split_ifs at hci hcj ⊢ <;> omega

theorem outEq_refl (a : List Int) (left right : Int) : outEq a a left right :=
  ⟨rfl, fun _ _ => rfl⟩

theorem outEq_trans {c b a : List Int} {left right : Int}
    (h1 : outEq c b left right) (h2 : outEq b a left right) :
    outEq c a left right :=
  ⟨h1.1.trans h2.1, fun j hj => (h1.2 j hj).trans (h2.2 j hj)⟩

theorem getD_swapA_ne (a : List Int) (i j : Int) (k : Nat)
    (h1 : k ≠ i.toNat) (h2 : k ≠ j.toNat) :
    (swapA a i j).getD k 0 = a.getD k 0 := by
  unfold swapA writeA
  rw [List.getD_eq_getElem?_getD, List.getElem?_set, if_neg (fun h => h2 h.symm),
    List.getElem?_set, if_neg (fun h => h1 h.symm), ← List.getD_eq_getElem?_getD]

theorem swapA_outEq (a : List Int) (i j left right : Int)
    (h0 : 0 ≤ left) (hi1 : left ≤ i) (hi2 : i ≤ right) (hj1 : left ≤ j)
    (hj2 : j ≤ right) :
    outEq (swapA a i j) a left right := by
  refine ⟨swapA_length a i j, fun k hk => ?_⟩
  have hki : k ≠ i.toNat := by
    intro he
    rcases hk with hk | hk <;> omega
  have hkj : k ≠ j.toNat := by
    intro he
    rcases hk with hk | hk <;> omega
  exact getD_swapA_ne a i j k hki hkj

theorem scanL_spec (a : List Int) (pivot : Int) :
    ∀ (fuel : Nat) (l m : Int), l ≤ m → pivot ≤ readA a m → (m - l).toNat < fuel →
    l ≤ scanL a pivot fuel l ∧ scanL a pivot fuel l ≤ m ∧
    pivot ≤ readA a (scanL a pivot fuel l) ∧
    ∀ i, l ≤ i → i < scanL a pivot fuel l → readA a i < pivot := by
  intro fuel
  induction fuel with
  | zero =>
    intro l m h1 h2 h3
    exact absurd h3 (by omega)
  | succ fuel ih =>
    intro l m h1 h2 h3
    simp only [scanL]
    by_cases hc : readA a l < pivot
    · rw [if_pos hc]
      have hlm : l ≠ m := by
        intro he
        rw [he] at hc
        omega
      have hrec := ih (l + 1) m (by omega) h2 (by omega)
      refine ⟨by omega, hrec.2.1, hrec.2.2.1, ?_⟩
      intro i hi1 hi2
      by_cases hil : i = l
      · rw [hil]
        exact hc
      · exact hrec.2.2.2 i (by omega) hi2
    · rw [if_neg hc]
      exact ⟨le_refl _, h1, by omega, fun i hi1 hi2 => by omega⟩

theorem scanR_spec (a : List Int) (pivot : Int) :
    ∀ (fuel : Nat) (r m : Int), m ≤ r → readA a m ≤ pivot → (r - m).toNat < fuel →
    scanR a pivot fuel r ≤ r ∧ m ≤ scanR a pivot fuel r ∧
    readA a (scanR a pivot fuel r) ≤ pivot ∧
    ∀ i, scanR a pivot fuel r < i → i ≤ r → pivot < readA a i := by
  intro fuel
  induction fuel with
  | zero =>
    intro r m h1 h2 h3
    exact absurd h3 (by omega)
  | succ fuel ih =>
    intro r m h1 h2 h3
    simp only [scanR]
    by_cases hc : pivot < readA a r
    · rw [if_pos hc]
      have hrm : r ≠ m := by
        intro he
        rw [he] at hc
        omega
      have hrec := ih (r - 1) m (by omega) h2 (by omega)
      refine ⟨by omega, hrec.2.1, hrec.2.2.1, ?_⟩
      intro i hi1 hi2
      by_cases hir : i = r
      · rw [hir]
        exact hc
      · exact hrec.2.2.2 i hi1 (by omega)
    · rw [if_neg hc]
      exact ⟨le_refl _, h1, by omega, fun i hi1 hi2 => by omega⟩

theorem partLoop_spec (pivot left right : Int) :
    ∀ (fuel : Nat) (a : List Int) (l r : Int),
    0 ≤ left → right < (a.length : Int) →
    left ≤ l → r ≤ right → l ≤ r →
    (∀ i, left ≤ i → i < l → readA a i ≤ pivot) →
    (∀ i, r < i → i ≤ right → pivot ≤ readA a i) →
    (∃ m, l ≤ m ∧ m ≤ r + 1 ∧ m ≤ right ∧ pivot ≤ readA a m) →
    (∃ m, l - 1 ≤ m ∧ m ≤ r ∧ left ≤ m ∧ readA a m ≤ pivot) →
    (r - l).toNat < fuel →
    PartOut pivot left right a (partLoop pivot fuel a l r).1 l r
      (partLoop pivot fuel a l r).2.1 (partLoop pivot fuel a l r).2.2 := by
  intro fuel
  induction fuel with
  | zero =>
    intro a l r _ _ _ _ hlr _ _ _ _ hfuel
    exact absurd hfuel (by omega)
  | succ fuel ih =>
    intro a l r h0 hlen hl hr hlr hzl hzr hsl hsr hfuel
    obtain ⟨mL, hmL1, hmL2, hmL3, hmL4⟩ := hsl
    obtain ⟨mR, hmR1, hmR2, hmR3, hmR4⟩ := hsr
    have hscanL := scanL_spec a pivot (a.length + 1) l mL hmL1 hmL4 (by omega)
    have hscanR := scanR_spec a pivot (a.length + 1) r mR hmR2 hmR4 (by omega)
    simp only [partLoop]
    set l1 := scanL a pivot (a.length + 1) l with hl1def
    set r1 := scanR a pivot (a.length + 1) r with hr1def
    obtain ⟨hl1a, hl1b, hl1c, hl1z⟩ := hscanL
    obtain ⟨hr1a, hr1b, hr1c, hr1z⟩ := hscanR
    have hzl1 : ∀ i, left ≤ i → i < l1 → readA a i ≤ pivot := by
      intro i hi1 hi2
      by_cases hil : i < l
      · exact hzl i hi1 hil
      · exact le_of_lt (hl1z i (by omega) hi2)
    have hzr1 : ∀ i, r1 < i → i ≤ right → pivot ≤ readA a i := by
      intro i hi1 hi2
      by_cases hir : r < i
      · exact hzr i hir hi2
      · exact le_of_lt (hr1z i hi1 (by omega))
    by_cases hle : l1 ≤ r1
    · rw [if_pos hle]
      have hl1n : l1.toNat < a.length := by omega
      have hr1n : r1.toNat < a.length := by omega
      have hv1 : readA (swapA a l1 r1) l1 = readA a r1 :=
        readA_swapA_left a l1 r1 hl1n hr1n
      have hv2 : readA (swapA a l1 r1) r1 = readA a l1 :=
        readA_swapA_right a l1 r1 hr1n
      have hperm1 : (swapA a l1 r1).Perm a := swapA_perm a l1 r1 hl1n hr1n
      have houtEq1 : outEq (swapA a l1 r1) a left right :=
        swapA_outEq a l1 r1 left right h0 (by omega) (by omega) (by omega) (by omega)
      have hzl2 : ∀ i, left ≤ i → i < l1 + 1 → readA (swapA a l1 r1) i ≤ pivot := by
        intro i hi1 hi2
        by_cases hi : i = l1
        · rw [hi, hv1]
          exact hr1c
        · rw [readA_swapA_other a l1 r1 i (by omega) (by omega)]
          exact hzl1 i hi1 (by omega)
      have hzr2 : ∀ i, r1 - 1 < i → i ≤ right → pivot ≤ readA (swapA a l1 r1) i := by
        intro i hi1 hi2
        by_cases hi : i = r1
        · rw [hi, hv2]
          exact hl1c
        · rw [readA_swapA_other a l1 r1 i (by omega) (by omega)]
          exact hzr1 i (by omega) hi2
      by_cases hle2 : l1 + 1 ≤ r1 - 1
      · rw [if_pos hle2]
        have hpost := ih (swapA a l1 r1) (l1 + 1) (r1 - 1) h0
          (by rw [swapA_length]; exact hlen)
          (by omega) (by omega) hle2 hzl2 hzr2
          ⟨r1, by omega, by omega, by omega, hv2.symm ▸ hl1c⟩
          ⟨l1, by omega, by omega, by omega, hv1.symm ▸ hr1c⟩
          (by omega)
        exact ⟨hpost.perm.trans hperm1, outEq_trans hpost.outside houtEq1,
          by have := hpost.lmono; omega,
          by have := hpost.rmono; omega,
          hpost.crossed, hpost.lbound, hpost.rbound, hpost.zoneL, hpost.zoneR,
          fun _ => ⟨by have := hpost.lmono; omega, by have := hpost.rmono; omega⟩⟩
      · rw [if_neg hle2]
        dsimp only
        exact ⟨hperm1, houtEq1, by omega, by omega, by omega, by omega, by omega,
          hzl2, hzr2, fun _ => ⟨by omega, by omega⟩⟩
    · rw [if_neg hle]
      dsimp only
      refine ⟨List.Perm.refl a, outEq_refl a left right, hl1a, hr1a, by omega,
        by omega, by omega, hzl1, hzr1, ?_⟩
      rintro ⟨m, hm1, hm2, hm3⟩
      exfalso
      have hml1 : l1 ≤ m := by
        by_contra hcon
        have := hl1z m hm1 (by omega)
        omega
      have hmr1 : m ≤ r1 := by
        by_contra hcon
        have := hr1z m (by omega) hm2
        omega
      omega

theorem partitionStep_spec (a : List Int) (left right : Int)
    (h0 : 0 ≤ left) (hlr : left < right) (hlen : right < (a.length : Int)) :
    PartOut (readA a ((left + right) / 2)) left right a
      (partitionStep a left right).1 left right
      (partitionStep a left right).2.1 (partitionStep a left right).2.2 ∧
    left + 1 ≤ (partitionStep a left right).2.1 ∧
    (partitionStep a left right).2.2 ≤ right - 1 := by
  have hmid1 : left ≤ (left + right) / 2 := by omega
  have hmid2 : (left + right) / 2 ≤ right := by omega
  have hpost := partLoop_spec (readA a ((left + right) / 2)) left right
    (a.length + 1) a left right h0 hlen
    (le_refl left) (le_refl right) (le_of_lt hlr)
    (fun i h1 h2 => by omega)
    (fun i h1 h2 => by omega)
    ⟨(left + right) / 2, hmid1, by omega, hmid2, le_refl _⟩
    ⟨(left + right) / 2, by omega, hmid2, hmid1, le_refl _⟩
    (by omega)
  have hprog := hpost.forward ⟨(left + right) / 2, hmid1, hmid2, rfl⟩
  exact ⟨hpost, hprog.1, hprog.2⟩

/-- C9: for a range [left, right] past the small-sort cutoff (tiny =
1000), when the partition loop of quicksort_job terminates with final
indices l and r: the indices have crossed (r < l), every element at an
index in [left, r] is at most the chosen pivot array[(left + right) / 2],
every element at an index in [l, right] is at least the pivot, and every
element strictly between r and l equals the pivot, so the two recursive
sub-ranges and the middle cover the range in correct relative position. -/
theorem partition_loop_invariant (a : List Int) (left right : Int)
    (h0 : 0 ≤ left) (hcut : 1000 < right - left) (hlen : right < (a.length : Int)) :
    (partitionStep a left right).2.2 < (partitionStep a left right).2.1 ∧
    (∀ i, left ≤ i → i ≤ (partitionStep a left right).2.2 →
      readA (partitionStep a left right).1 i ≤ readA a ((left + right) / 2)) ∧
    (∀ i, (partitionStep a left right).2.1 ≤ i → i ≤ right →
      readA a ((left + right) / 2) ≤ readA (partitionStep a left right).1 i) ∧
    (∀ i, (partitionStep a left right).2.2 < i →
      i < (partitionStep a left right).2.1 →
      readA (partitionStep a left right).1 i = readA a ((left + right) / 2)) := by
  obtain ⟨hpost, hpl, hpr⟩ := partitionStep_spec a left right h0 (by omega) hlen
  have hcross := hpost.crossed
  have hlb := hpost.lbound
  have hrb := hpost.rbound
  refine ⟨hcross, ?_, ?_, ?_⟩
  · intro i h1 h2
    exact hpost.zoneL i h1 (by omega)
  · intro i h1 h2
    exact hpost.zoneR i (by omega) h2
  · intro i h1 h2
    have hle1 := hpost.zoneL i (by omega) h2
    have hge1 := hpost.zoneR i h1 (by omega)
    exact le_antisymm hle1 hge1

set_option maxRecDepth 100000 in
/-- C9 witness: an all-equal array of 1002 elements, range [0, 1001]. -/
theorem partition_loop_invariant_witness :
    0 ≤ (0 : Int) ∧ 1000 < (1001 : Int) - 0 ∧
    (1001 : Int) < ((List.replicate 1002 (0 : Int)).length : Int) ∧
    ((partitionStep (List.replicate 1002 (0 : Int)) 0 1001).2.2
        < (partitionStep (List.replicate 1002 (0 : Int)) 0 1001).2.1 ∧
     (∀ i, (0 : Int) ≤ i → i ≤ (partitionStep (List.replicate 1002 (0 : Int)) 0 1001).2.2 →
       readA (partitionStep (List.replicate 1002 (0 : Int)) 0 1001).1 i
         ≤ readA (List.replicate 1002 (0 : Int)) ((0 + 1001) / 2)) ∧
     (∀ i, (partitionStep (List.replicate 1002 (0 : Int)) 0 1001).2.1 ≤ i → i ≤ 1001 →
       readA (List.replicate 1002 (0 : Int)) ((0 + 1001) / 2)
         ≤ readA (partitionStep (List.replicate 1002 (0 : Int)) 0 1001).1 i) ∧
     (∀ i, (partitionStep (List.replicate 1002 (0 : Int)) 0 1001).2.2 < i →
       i < (partitionStep (List.replicate 1002 (0 : Int)) 0 1001).2.1 →
       readA (partitionStep (List.replicate 1002 (0 : Int)) 0 1001).1 i
         = readA (List.replicate 1002 (0 : Int)) ((0 + 1001) / 2))) :=
  ⟨by decide, by decide, by decide,
    partition_loop_invariant (List.replicate 1002 (0 : Int)) 0 1001
      (by decide) (by decide) (by decide)⟩

theorem sortRange_append (W X Y Z : List Int) (left right : Int)
    (hW : W = X ++ (Y ++ Z)) (hX : X.length = left.toNat)
    (hY : Y.length = (right + 1 - left).toNat) :
    sortRange W left right = X ++ (List.insertionSort (· ≤ ·) Y ++ Z) := by
  subst hW
  simp only [sortRange]
  rw [List.take_left' hX, List.drop_left' hX, List.take_left' hY, List.drop_left' hY,
    List.append_assoc]

theorem sortRange_length (a : List Int) (left right : Int) :
    (sortRange a left right).length = a.length := by
  unfold sortRange
  simp only [List.length_append, List.length_insertionSort, List.length_take,
    List.length_drop]
  omega

theorem sortRange_self (a : List Int) (left right : Int)
    (h0 : 0 ≤ left) (h1 : left - 1 ≤ right) (h2 : right ≤ left)
    (h3 : right < (a.length : Int)) :
    sortRange a left right = a := by
  rcases (by omega : right = left - 1 ∨ right = left) with he | he
  · have hlen0 : (right + 1 - left).toNat = 0 := by omega
    simp only [sortRange, hlen0]
    simp only [List.take_zero, List.insertionSort, List.append_nil, List.drop_zero]
    exact List.take_append_drop _ a
  · have hlen1 : (right + 1 - left).toNat = 1 := by omega
    have hlo : left.toNat < a.length := by omega
    have hne : a.drop left.toNat ≠ [] := by
      intro hnil
      have hdl : (a.drop left.toNat).length = a.length - left.toNat :=
        List.length_drop _ _
      rw [hnil] at hdl
      simp at hdl
      omega
    obtain ⟨x, xs, hxs⟩ := List.exists_cons_of_ne_nil hne
    simp only [sortRange, hlen1, hxs]
    have ht1 : (x :: xs).take 1 = [x] := rfl
    have hd1 : (x :: xs).drop 1 = xs := rfl
    rw [ht1, hd1]
    have hs1 : List.insertionSort (fun x1 x2 => x1 ≤ x2) [x] = [x] := rfl
    rw [hs1, List.append_assoc]
    rw [show [x] ++ xs = x :: xs from rfl, ← hxs]
    exact List.take_append_drop _ a

theorem seg_mem (b : List Int) (off len : Nat) (x : Int)
    (hx : x ∈ (b.drop off).take len) :
    ∃ k, k < len ∧ off + k < b.length ∧ x = b.getD (off + k) 0 := by
  obtain ⟨idx, hidx, hget⟩ := List.mem_iff_getElem.mp hx
  have hlen := hidx
  rw [List.length_take, List.length_drop] at hlen
  have hidx2 : idx < len := by omega
  have hoff : off + idx < b.length := by omega
  refine ⟨idx, hidx2, hoff, ?_⟩
  rw [getD_eq_getElem b (off + idx) hoff, ← hget, List.getElem_take,
    List.getElem_drop]

theorem seg_elem_readA (a1 : List Int) (off : Nat) (base : Int) (len : Nat)
    (hbase : 0 ≤ base) (hoff : off = base.toNat) (x : Int)
    (hx : x ∈ (a1.drop off).take len) :
    ∃ k : Nat, k < len ∧ x = readA a1 (base + (k : Int)) := by
  obtain ⟨k, hk, hoffk, hxe⟩ := seg_mem a1 off len x hx
  refine ⟨k, hk, ?_⟩
  rw [hxe]
  unfold readA
  congr 1
  omega

theorem sorted_const (M : List Int) (c : Int) (h : ∀ x ∈ M, x = c) :
    List.Sorted (· ≤ ·) M := by
  induction M with
  | nil => exact List.sorted_nil
  | cons y ys ih =>
    rw [List.sorted_cons]
    refine ⟨fun b hb => ?_, ih (fun x hx => h x (List.mem_cons_of_mem _ hx))⟩
    rw [h y (List.mem_cons_self _ _), h b (List.mem_cons_of_mem _ hb)]

theorem sorted_append3 (A B C : List Int) (pivot : Int)
    (hA : List.Sorted (· ≤ ·) A) (hB : List.Sorted (· ≤ ·) B)
    (hC : List.Sorted (· ≤ ·) C)
    (hvA : ∀ x ∈ A, x ≤ pivot) (hvB : ∀ x ∈ B, x = pivot)
    (hvC : ∀ x ∈ C, pivot ≤ x) :
    List.Sorted (· ≤ ·) (A ++ (B ++ C)) := by
  show List.Pairwise (· ≤ ·) (A ++ (B ++ C))
  rw [List.pairwise_append]
  refine ⟨hA, ?_, ?_⟩
  · rw [List.pairwise_append]
    refine ⟨hB, hC, ?_⟩
    intro b hb c hc
    rw [hvB b hb]
    exact hvC c hc
  · intro x hx y hy
    rcases List.mem_append.mp hy with hy | hy
    · rw [hvB y hy]
      exact hvA x hx
    · exact le_trans (hvA x hx) (hvC y hy)

theorem outEq_take (b a : List Int) (left right : Int) (h : outEq b a left right)
    (h0 : 0 ≤ left) :
    b.take left.toNat = a.take left.toNat := by
  apply List.ext_getElem
  · simp [List.length_take, h.1]
  · intro j h1 h2
    rw [List.length_take] at h1
    have hjb : j < b.length := by omega
    have hja : j < a.length := by
      have := h.1
      omega
    have hout := h.2 j (Or.inl (by omega))
    rw [getD_eq_getElem b j hjb, getD_eq_getElem a j hja] at hout
    rw [List.getElem_take, List.getElem_take]
    exact hout

theorem outEq_drop (b a : List Int) (left right : Int) (h : outEq b a left right)
    (hr : 0 ≤ right + 1) :
    b.drop (right + 1).toNat = a.drop (right + 1).toNat := by
  apply List.ext_getElem
  · simp [List.length_drop, h.1]
  · intro k h1 h2
    rw [List.length_drop] at h1
    have hb : (right + 1).toNat + k < b.length := by omega
    have ha : (right + 1).toNat + k < a.length := by
      have := h.1
      omega
    have hout := h.2 ((right + 1).toNat + k) (Or.inr (by omega))
    rw [getD_eq_getElem b _ hb, getD_eq_getElem a _ ha] at hout
    rw [List.getElem_drop, List.getElem_drop]
    exact hout

theorem sortRange_compose_core
    (A SL SM SR Z S : List Int) (pivot left r l right : Int)
    (h0 : 0 ≤ left) (hrb : left - 1 ≤ r) (hcross : r < l) (hlb : l ≤ right + 1)
    (hALen : A.length = left.toNat)
    (hSLLen : SL.length = (r + 1 - left).toNat)
    (hSMLen : SM.length = (l - 1 - r).toNat)
    (hSRLen : SR.length = (right + 1 - l).toNat)
    (hSLen : S.length = (right + 1 - left).toNat)
    (hSperm : (SL ++ (SM ++ SR)).Perm S)
    (hvL : ∀ x ∈ SL, x ≤ pivot)
    (hvM : ∀ x ∈ SM, x = pivot)
    (hvR : ∀ x ∈ SR, pivot ≤ x) :
    sortRange (sortRange (A ++ (SL ++ (SM ++ (SR ++ Z)))) left r) l right
      = sortRange (A ++ (S ++ Z)) left right ∧
    sortRange (sortRange (A ++ (SL ++ (SM ++ (SR ++ Z)))) l right) left r
      = sortRange (A ++ (S ++ Z)) left right := by
  have hkey : List.insertionSort (· ≤ ·) S
      = List.insertionSort (· ≤ ·) SL ++ (SM ++ List.insertionSort (· ≤ ·) SR) := by
    refine (List.eq_of_perm_of_sorted ?_ ?_ (List.sorted_insertionSort _ S)).symm
    · exact ((List.perm_insertionSort _ SL).append
        ((List.Perm.refl SM).append (List.perm_insertionSort _ SR))).trans
        (hSperm.trans (List.perm_insertionSort _ S).symm)
    · refine sorted_append3 _ _ _ pivot (List.sorted_insertionSort _ SL) ?_
        (List.sorted_insertionSort _ SR) ?_ hvM ?_
      · exact sorted_const SM pivot hvM
      · intro x hx
        exact hvL x ((List.perm_insertionSort _ SL).mem_iff.mp hx)
      · intro x hx
        exact hvR x ((List.perm_insertionSort _ SR).mem_iff.mp hx)
  have htarget : sortRange (A ++ (S ++ Z)) left right
      = A ++ (List.insertionSort (· ≤ ·) S ++ Z) :=
    sortRange_append _ A S Z left right rfl hALen hSLen
  have hA1 : sortRange (A ++ (SL ++ (SM ++ (SR ++ Z)))) left r
      = A ++ (List.insertionSort (· ≤ ·) SL ++ (SM ++ (SR ++ Z))) :=
    sortRange_append _ A SL (SM ++ (SR ++ Z)) left r rfl hALen hSLLen
  have hXlen : (A ++ (List.insertionSort (· ≤ ·) SL ++ SM)).length = l.toNat := by
    simp only [List.length_append, List.length_insertionSort, hALen, hSLLen, hSMLen]
    omega
  have hA2 : sortRange (A ++ (List.insertionSort (· ≤ ·) SL ++ (SM ++ (SR ++ Z)))) l right
      = (A ++ (List.insertionSort (· ≤ ·) SL ++ SM)) ++ (List.insertionSort (· ≤ ·) SR ++ Z) :=
    sortRange_append _ (A ++ (List.insertionSort (· ≤ ·) SL ++ SM)) SR Z l right
      (by simp [List.append_assoc]) hXlen hSRLen
  have hX2len : (A ++ (SL ++ SM)).length = l.toNat := by
    simp only [List.length_append, hALen, hSLLen, hSMLen]
    omega
  have hB1 : sortRange (A ++ (SL ++ (SM ++ (SR ++ Z)))) l right
      = (A ++ (SL ++ SM)) ++ (List.insertionSort (· ≤ ·) SR ++ Z) :=
    sortRange_append _ (A ++ (SL ++ SM)) SR Z l right
      (by simp [List.append_assoc]) hX2len hSRLen
  have hB2 : sortRange ((A ++ (SL ++ SM)) ++ (List.insertionSort (· ≤ ·) SR ++ Z)) left r
      = A ++ (List.insertionSort (· ≤ ·) SL ++ (SM ++ (List.insertionSort (· ≤ ·) SR ++ Z))) :=
    sortRange_append _ A SL (SM ++ (List.insertionSort (· ≤ ·) SR ++ Z)) left r
      (by simp [List.append_assoc]) hALen hSLLen
  constructor
  · rw [hA1, hA2, htarget, hkey]
    simp [List.append_assoc]
  · rw [hB1, hB2, htarget, hkey]
    simp [List.append_assoc]

theorem sortRange_compose (a1 a : List Int) (pivot left r l right : Int)
    (h0 : 0 ≤ left) (hlr : left < right) (hlen : right < (a.length : Int))
    (hperm : a1.Perm a) (hout : outEq a1 a left right)
    (hrb : left - 1 ≤ r) (hcross : r < l) (hlb : l ≤ right + 1)
    (hru : r ≤ right - 1) (hlu : left + 1 ≤ l)
    (hzL : ∀ i, left ≤ i → i < l → readA a1 i ≤ pivot)
    (hzR : ∀ i, r < i → i ≤ right → pivot ≤ readA a1 i) :
    sortRange (sortRange a1 left r) l right = sortRange a left right ∧
    sortRange (sortRange a1 l right) left r = sortRange a left right := by
  have hlen1 : a1.length = a.length := hperm.length_eq
  have hd1 : a1 = a1.take left.toNat ++
      ((a1.drop left.toNat).take (r + 1 - left).toNat ++
        (((a1.drop left.toNat).drop (r + 1 - left).toNat).take (l - 1 - r).toNat ++
          ((((a1.drop left.toNat).drop (r + 1 - left).toNat).drop (l - 1 - r).toNat).take (right + 1 - l).toNat ++
            ((((a1.drop left.toNat).drop (r + 1 - left).toNat).drop (l - 1 - r).toNat).drop (right + 1 - l).toNat)))) := by
    rw [List.take_append_drop, List.take_append_drop, List.take_append_drop,
      List.take_append_drop]
  have hda : a = a.take left.toNat ++
      ((a.drop left.toNat).take (right + 1 - left).toNat ++
        (a.drop left.toNat).drop (right + 1 - left).toNat) := by
    rw [List.take_append_drop, List.take_append_drop]
  have hAeq : a1.take left.toNat = a.take left.toNat :=
    outEq_take a1 a left right hout h0
  have hZeq : (((a1.drop left.toNat).drop (r + 1 - left).toNat).drop (l - 1 - r).toNat).drop (right + 1 - l).toNat
      = (a.drop left.toNat).drop (right + 1 - left).toNat := by
    have hZ1 : (((a1.drop left.toNat).drop (r + 1 - left).toNat).drop (l - 1 - r).toNat).drop (right + 1 - l).toNat
        = a1.drop (right + 1).toNat := by
      rw [List.drop_drop, List.drop_drop, List.drop_drop]
      congr 1
      omega
    have hZ2 : (a.drop left.toNat).drop (right + 1 - left).toNat
        = a.drop (right + 1).toNat := by
      rw [List.drop_drop]
      congr 1
      omega
    rw [hZ1, hZ2]
    exact outEq_drop a1 a left right hout (by omega)
  have hvL : ∀ x ∈ (a1.drop left.toNat).take (r + 1 - left).toNat, x ≤ pivot := by
    intro x hx
    obtain ⟨k, hk, hxe⟩ :=
      seg_elem_readA a1 left.toNat left ((r + 1 - left).toNat) h0 rfl x hx
    rw [hxe]
    exact hzL (left + k) (by omega) (by omega)
  have hvM : ∀ x ∈ ((a1.drop left.toNat).drop (r + 1 - left).toNat).take (l - 1 - r).toNat,
      x = pivot := by
    intro x hx
    rw [show (a1.drop left.toNat).drop (r + 1 - left).toNat
        = a1.drop (left.toNat + (r + 1 - left).toNat) from by rw [List.drop_drop]] at hx
    obtain ⟨k, hk, hxe⟩ := seg_elem_readA a1 (left.toNat + (r + 1 - left).toNat)
      (r + 1) ((l - 1 - r).toNat) (by omega) (by omega) x hx
    rw [hxe]
    exact le_antisymm (hzL (r + 1 + k) (by omega) (by omega))
      (hzR (r + 1 + k) (by omega) (by omega))
  have hvR : ∀ x ∈ (((a1.drop left.toNat).drop (r + 1 - left).toNat).drop (l - 1 - r).toNat).take (right + 1 - l).toNat,
      pivot ≤ x := by
    intro x hx
    rw [show ((a1.drop left.toNat).drop (r + 1 - left).toNat).drop (l - 1 - r).toNat
        = a1.drop (left.toNat + (r + 1 - left).toNat + (l - 1 - r).toNat) from by
      rw [List.drop_drop, List.drop_drop]
      congr 1
      omega] at hx
    obtain ⟨k, hk, hxe⟩ := seg_elem_readA a1
      (left.toNat + (r + 1 - left).toNat + (l - 1 - r).toNat)
      l ((right + 1 - l).toNat) (by omega) (by omega) x hx
    rw [hxe]
    exact hzR (l + k) (by omega) (by omega)
  have hbig : a1.take left.toNat ++
      (((a1.drop left.toNat).take (r + 1 - left).toNat ++
        (((a1.drop left.toNat).drop (r + 1 - left).toNat).take (l - 1 - r).toNat ++
          (((a1.drop left.toNat).drop (r + 1 - left).toNat).drop (l - 1 - r).toNat).take (right + 1 - l).toNat)) ++
        (((a1.drop left.toNat).drop (r + 1 - left).toNat).drop (l - 1 - r).toNat).drop (right + 1 - l).toNat)
      = a1 := by
    rw [show ((a1.drop left.toNat).take (r + 1 - left).toNat ++
        (((a1.drop left.toNat).drop (r + 1 - left).toNat).take (l - 1 - r).toNat ++
          (((a1.drop left.toNat).drop (r + 1 - left).toNat).drop (l - 1 - r).toNat).take (right + 1 - l).toNat)) ++
        (((a1.drop left.toNat).drop (r + 1 - left).toNat).drop (l - 1 - r).toNat).drop (right + 1 - l).toNat
      = (a1.drop left.toNat).take (r + 1 - left).toNat ++
        (((a1.drop left.toNat).drop (r + 1 - left).toNat).take (l - 1 - r).toNat ++
          ((((a1.drop left.toNat).drop (r + 1 - left).toNat).drop (l - 1 - r).toNat).take (right + 1 - l).toNat ++
            (((a1.drop left.toNat).drop (r + 1 - left).toNat).drop (l - 1 - r).toNat).drop (right + 1 - l).toNat))
      from by simp [List.append_assoc]]
    exact hd1.symm
  have hbiga : a.take left.toNat ++
      ((a.drop left.toNat).take (right + 1 - left).toNat ++
        (((a1.drop left.toNat).drop (r + 1 - left).toNat).drop (l - 1 - r).toNat).drop (right + 1 - l).toNat)
      = a := by
    rw [hZeq]
    exact hda.symm
  have hSperm : ((a1.drop left.toNat).take (r + 1 - left).toNat ++
      (((a1.drop left.toNat).drop (r + 1 - left).toNat).take (l - 1 - r).toNat ++
        (((a1.drop left.toNat).drop (r + 1 - left).toNat).drop (l - 1 - r).toNat).take (right + 1 - l).toNat)).Perm
      ((a.drop left.toNat).take (right + 1 - left).toNat) := by
    have hP1 : (a1.take left.toNat ++
        (((a1.drop left.toNat).take (r + 1 - left).toNat ++
          (((a1.drop left.toNat).drop (r + 1 - left).toNat).take (l - 1 - r).toNat ++
            (((a1.drop left.toNat).drop (r + 1 - left).toNat).drop (l - 1 - r).toNat).take (right + 1 - l).toNat)) ++
          (((a1.drop left.toNat).drop (r + 1 - left).toNat).drop (l - 1 - r).toNat).drop (right + 1 - l).toNat)).Perm
        (a.take left.toNat ++
          ((a.drop left.toNat).take (right + 1 - left).toNat ++
            (((a1.drop left.toNat).drop (r + 1 - left).toNat).drop (l - 1 - r).toNat).drop (right + 1 - l).toNat)) := by
      rw [hbig, hbiga]
      exact hperm
    rw [hAeq] at hP1
    have hP2 := (List.perm_append_left_iff (a.take left.toNat)).mp hP1
    exact (List.perm_append_right_iff _).mp hP2
  have hcore := sortRange_compose_core
    (a1.take left.toNat)
    ((a1.drop left.toNat).take (r + 1 - left).toNat)
    (((a1.drop left.toNat).drop (r + 1 - left).toNat).take (l - 1 - r).toNat)
    ((((a1.drop left.toNat).drop (r + 1 - left).toNat).drop (l - 1 - r).toNat).take (right + 1 - l).toNat)
    ((((a1.drop left.toNat).drop (r + 1 - left).toNat).drop (l - 1 - r).toNat).drop (right + 1 - l).toNat)
    ((a.drop left.toNat).take (right + 1 - left).toNat)
    pivot left r l right h0 hrb hcross hlb
    (by rw [List.length_take]; omega)
    (by simp only [List.length_take, List.length_drop]; omega)
    (by simp only [List.length_take, List.length_drop]; omega)
    (by simp only [List.length_take, List.length_drop]; omega)
    (by simp only [List.length_take, List.length_drop]; omega)
    hSperm hvL hvM hvR
  have hfin1 : a1.take left.toNat ++
      ((a1.drop left.toNat).take (r + 1 - left).toNat ++
        (((a1.drop left.toNat).drop (r + 1 - left).toNat).take (l - 1 - r).toNat ++
          ((((a1.drop left.toNat).drop (r + 1 - left).toNat).drop (l - 1 - r).toNat).take (right + 1 - l).toNat ++
            ((((a1.drop left.toNat).drop (r + 1 - left).toNat).drop (l - 1 - r).toNat).drop (right + 1 - l).toNat))))
      = a1 := hd1.symm
  have hfin2 : a1.take left.toNat ++
      ((a.drop left.toNat).take (right + 1 - left).toNat ++
        (((a1.drop left.toNat).drop (r + 1 - left).toNat).drop (l - 1 - r).toNat).drop (right + 1 - l).toNat)
      = a := by
    rw [hAeq]
    exact hbiga
  rw [hfin1, hfin2] at hcore
  exact hcore

theorem quicksort_job_eq_sortRange :
    ∀ (fuel : Nat) (a : List Int) (left right threshold : Int),
    0 ≤ left → left - 1 ≤ right → right < (a.length : Int) →
    (right - left).toNat < fuel →
    quicksort_job fuel a left right threshold = sortRange a left right := by
  intro fuel
  induction fuel with
  | zero =>
    intro a left right threshold h0 h1 h2 hfuel
    exact absurd hfuel (by omega)
  | succ fuel ih =>
    intro a left right threshold h0 h1 h2 hfuel
    by_cases hge : left ≥ right
    · have hq : quicksort_job (fuel + 1) a left right threshold = a := by
        simp only [quicksort_job]
        rw [if_pos hge]
      rw [hq]
      exact (sortRange_self a left right h0 h1 (by omega) h2).symm
    · by_cases htiny : right - left ≤ 1000
      · simp only [quicksort_job]
        rw [if_neg hge, if_pos htiny]
      · obtain ⟨hpost, hpl, hpu⟩ := partitionStep_spec a left right h0 (by omega) h2
        simp only [quicksort_job]
        rw [if_neg hge, if_neg htiny]
        set t := partitionStep a left right with ht
        have hlen1 : t.1.length = a.length := hpost.perm.length_eq
        have hrb := hpost.rbound
        have hlb := hpost.lbound
        have hcross := hpost.crossed
        have hinner : quicksort_job fuel t.1 left t.2.2 threshold
            = sortRange t.1 left t.2.2 :=
          ih t.1 left t.2.2 threshold h0 hrb (by omega) (by omega)
        have hinner2 : quicksort_job fuel t.1 t.2.1 right threshold
            = sortRange t.1 t.2.1 right :=
          ih t.1 t.2.1 right threshold (by omega) (by omega) (by omega) (by omega)
        have hcomp := sortRange_compose t.1 a (readA a ((left + right) / 2))
          left t.2.2 t.2.1 right h0 (by omega) h2 hpost.perm hpost.outside
          hrb hcross hlb hpu hpl hpost.zoneL hpost.zoneR
        have houter : quicksort_job fuel (sortRange t.1 left t.2.2) t.2.1 right threshold
            = sortRange (sortRange t.1 left t.2.2) t.2.1 right := by
          apply ih _ t.2.1 right threshold (by omega) (by omega) _ (by omega)
          rw [sortRange_length, hlen1]
          exact h2
        have houter2 : quicksort_job fuel (sortRange t.1 t.2.1 right) left t.2.2 threshold
            = sortRange (sortRange t.1 t.2.1 right) left t.2.2 := by
          apply ih _ left t.2.2 threshold h0 hrb _ (by omega)
          rw [sortRange_length, hlen1]
          omega
        split_ifs
        · rw [hinner, houter]
          exact hcomp.1
        · rw [hinner, houter]
          exact hcomp.1
        · rw [hinner2, houter2]
          exact hcomp.2
        · rw [hinner, houter]
          exact hcomp.1

theorem sortRange_eq_self_of_empty (a : List Int) (left right : Int)
    (hlen0 : (right + 1 - left).toNat = 0) :
    sortRange a left right = a := by
  simp only [sortRange, hlen0]
  simp only [List.take_zero, List.insertionSort, List.append_nil, List.drop_zero]
  exact List.take_append_drop _ a

theorem getD_append_outside (X W : List Int) (j : Nat) :
    (X ++ W).getD j 0 = if j < X.length then X.getD j 0 else W.getD (j - X.length) 0 := by
  rw [List.getD_eq_getElem?_getD, List.getElem?_append]
  split_ifs with h
  · rw [← List.getD_eq_getElem?_getD]
  · rw [← List.getD_eq_getElem?_getD]

theorem getD_drop (a : List Int) (m k : Nat) :
    (a.drop m).getD k 0 = a.getD (m + k) 0 := by
  rw [List.getD_eq_getElem?_getD, List.getElem?_drop, ← List.getD_eq_getElem?_getD]

theorem getD_take (a : List Int) (m k : Nat) (h : k < m) :
    (a.take m).getD k 0 = a.getD k 0 := by
  rw [List.getD_eq_getElem?_getD, List.getElem?_take, if_pos h,
    ← List.getD_eq_getElem?_getD]

theorem sortRange_outEq (a : List Int) (left right : Int)
    (h0 : 0 ≤ left) (hlen : right < (a.length : Int)) :
    outEq (sortRange a left right) a left right := by
  by_cases hdeg : (right + 1 - left).toNat = 0
  · rw [sortRange_eq_self_of_empty a left right hdeg]
    exact outEq_refl a left right
  · have hlr : left ≤ right := by omega
    refine ⟨sortRange_length a left right, ?_⟩
    intro j hj
    by_cases hjlen : j < a.length
    · have hXlen : (a.take left.toNat).length = left.toNat := by
        rw [List.length_take]
        omega
      have hYlen : (List.insertionSort (· ≤ ·) ((a.drop left.toNat).take (right + 1 - left).toNat)).length
          = (right + 1 - left).toNat := by
        rw [List.length_insertionSort, List.length_take, List.length_drop]
        omega
      show (a.take left.toNat ++
        List.insertionSort (· ≤ ·) ((a.drop left.toNat).take (right + 1 - left).toNat) ++
        (a.drop left.toNat).drop (right + 1 - left).toNat).getD j 0 = a.getD j 0
      rw [getD_append_outside, getD_append_outside]
      rcases hj with hj | hj
      · have hjlo : j < left.toNat := by omega
        rw [if_pos (by rw [List.length_append, hXlen, hYlen]; omega),
          if_pos (by rw [hXlen]; omega)]
        exact getD_take a left.toNat j (by omega)
      · have hjhi : left.toNat + (right + 1 - left).toNat ≤ j := by omega
        rw [if_neg (by rw [List.length_append, hXlen, hYlen]; omega)]
        rw [List.length_append, hXlen, hYlen]
        rw [List.drop_drop, getD_drop]
        congr 1
        omega
    · have h1 : (sortRange a left right).length ≤ j := by
        rw [sortRange_length]
        omega
      rw [List.getD_eq_default _ _ h1, List.getD_eq_default _ _ (by omega)]

/-- C10: quicksort_job touches only the index range [left, right]: a
call with left at least right returns the array unchanged at once, and
for any in-range call with enough fuel, every element outside
[left, right] is the same after the whole sort as before. -/
theorem quicksort_frame_property (fuel : Nat) (a : List Int)
    (left right threshold : Int)
    (h0 : 0 ≤ left) (hlen : right < (a.length : Int))
    (hfuel : (right - left).toNat < fuel) :
    (left ≥ right → quicksort_job fuel a left right threshold = a) ∧
    outEq (quicksort_job fuel a left right threshold) a left right := by
  constructor
  · intro hge
    cases fuel with
    | zero => rfl
    | succ fuel =>
      simp only [quicksort_job]
      rw [if_pos hge]
  · by_cases hcase : left - 1 ≤ right
    · rw [quicksort_job_eq_sortRange fuel a left right threshold h0 hcase hlen hfuel]
      exact sortRange_outEq a left right h0 hlen
    · have hge : left ≥ right := by omega
      cases fuel with
      | zero => exact outEq_refl a left right
      | succ fuel =>
        simp only [quicksort_job]
        rw [if_pos hge]
        exact outEq_refl a left right

/-- C10 witness: a three-element array sorted over its full range. -/
theorem quicksort_frame_property_witness :
    0 ≤ (0 : Int) ∧ (2 : Int) < (([4, 6, 5] : List Int).length : Int) ∧
    ((2 : Int) - 0).toNat < 3 ∧
    (((0 : Int) ≥ 2 → quicksort_job 3 [4, 6, 5] 0 2 100 = [4, 6, 5]) ∧
      outEq (quicksort_job 3 [4, 6, 5] 0 2 100) [4, 6, 5] 0 2) :=
  ⟨by decide, by decide, by decide,
    quicksort_frame_property 3 [4, 6, 5] 0 2 100 (by decide) (by decide) (by decide)⟩

/-- C3: the parallel quicksort computes exactly the sequential baseline:
for every input array and every threshold, running the root
quicksort_job over the whole range [0, N - 1] produces the same array as
std::sort on the same input (so it is correct on the empty range, on
singletons, on sorted input and on constant input), the result is
sorted, and the concrete input [5, 3, 8, 1, 9, 2] yields
[1, 2, 3, 5, 8, 9]. -/
theorem quicksort_matches_baseline :
    (∀ (a : List Int) (threshold : Int),
      quicksort_async_model a threshold = baseline_sort a ∧
      List.Sorted (· ≤ ·) (quicksort_async_model a threshold)) ∧
    quicksort_async_model [5, 3, 8, 1, 9, 2] 0 = [1, 2, 3, 5, 8, 9] := by
  have hmain : ∀ (a : List Int) (threshold : Int),
      quicksort_async_model a threshold = baseline_sort a := by
    intro a threshold
    unfold quicksort_async_model
    rw [quicksort_job_eq_sortRange (a.length + 1) a 0 ((a.length : Int) - 1)
      threshold (le_refl 0) (by omega) (by omega) (by omega)]
    simp only [sortRange, baseline_sort]
    have h1 : (0 : Int).toNat = 0 := rfl
    have h2 : ((a.length : Int) - 1 + 1 - 0).toNat = a.length := by omega
    rw [h1, h2]
    simp [List.take_length, List.drop_length]
  refine ⟨fun a th => ⟨hmain a th, ?_⟩, ?_⟩
  · rw [hmain a th]
    exact List.sorted_insertionSort _ a
  · rw [hmain [5, 3, 8, 1, 9, 2] 0]
    decide
